import Mathlib

/-!
# Verification of the wwiseflow graph compiler and execution engine

Shallow embedding of `app/graph_compiler.py` and `app/workflow_runner_v2.py`.

Modelling conventions:
* Python dicts are association lists `List (String × _)` with unique keys,
  preserving insertion order (CPython dict semantics).  Assignment updates an
  existing key in place and appends a fresh key at the end.
* JSON-ish values are the inductive `Value` (string / int / bool / null);
  Python truthiness is `Value.truthy`.
* `None` for a missing edge endpoint is conflated with `""`: both are falsy in
  `if not source or not target`, which is the only way the code observes them.
* The SHA-256 idempotency hash is modelled injectively by the canonical payload
  itself (`IdemKey`: nodeId, type, and the volatile-key-stripped, key-sorted
  data), mirroring `json.dumps(payload, sort_keys=True)` before hashing.
* Wall-clock reads (`datetime.now()` in `_resolve_symbolic_refs`) are passed in
  as explicit string parameters (the already-formatted `%Y%m%d%H%M%S` and
  `%H%M%S` values).
* Step handlers perform network I/O against Wwise; they are modelled as
  explicit state transformers `Dict → σ → StepResult × σ` over an abstract
  external-world state `σ`, injected through the registry (the registry itself
  is an injected read-only map, matching the singleton in `node_registry.py`).
* Python's `while queue:` loop of Kahn's algorithm is written with explicit
  fuel; `kahnFuel` below is proved sufficient for every input reachable from
  `compile_workflow` (the loop performs at most one iteration per node).
-/

namespace WF

/-- JSON-ish scalar values stored in node `data` dicts and step results. -/
inductive Value where
  | str : String → Value
  | int : Int → Value
  | bool : Bool → Value
  | null : Value
deriving DecidableEq, Repr

/-- Python truthiness of a `Value` (`if resolved[required_field]:`). -/
def Value.truthy : Value → Bool
  | .str s => s ≠ ""
  | .int n => n ≠ 0
  | .bool b => b
  | .null => false

/-- A Python dict with string keys: ordered association list, unique keys. -/
abbrev Dict := List (String × Value)

/-- Dict lookup (`d[k]` / `d.get(k)`): first binding of the key. -/
def dictLookup (d : Dict) (k : String) : Option Value :=
  (d.find? (fun p => p.1 = k)).map (fun p => p.2)

/-- Dict membership (`k in d`). -/
def dictContains (d : Dict) (k : String) : Bool :=
  (dictLookup d k).isSome

/-- Dict assignment (`d[k] = v`): update in place, or append a fresh key. -/
def dictInsert : Dict → String → Value → Dict
  | [], k, v => [(k, v)]
  | (k', v') :: rest, k, v =>
      if k' = k then (k, v) :: rest else (k', v') :: dictInsert rest k v

/-- A workflow node `{id, type, data}` (React Flow node). -/
structure Node where
  id : String
  type : String
  data : Dict
deriving DecidableEq, Repr

/-- A directed edge `{source, target}`; a missing endpoint is modelled `""`. -/
structure Edge where
  source : String
  target : String
deriving DecidableEq, Repr

/-- A workflow `{nodes, edges}`. -/
structure Flow where
  nodes : List Node
  edges : List Edge
deriving DecidableEq, Repr

/-- A handler's return dict, read via `result.get("ok", False)` /
`result.get("data", {})` / `error` / `code`. -/
structure StepResult where
  ok : Bool
  data : Dict := []
  error : Option String := none
  code : Option String := none
deriving DecidableEq, Repr

/-- Compiler-visible part of a registered node type: `required` input field
names, `outputs` exported into the context, and the `run` handler invoked by
the engine (a state transformer over the external world `σ`).  Mirrors
`NodeSpec` of `node_registry.py` minus UI metadata (label, description,
category, optional defaults), none of which the compiler or engine reads. -/
structure NodeSpecM (σ : Type) where
  required : List String
  outputs : List String
  run : Dict → σ → StepResult × σ

/-- The injected registry: type name → spec (`registry.get(node_type)`). -/
abbrev Registry (σ : Type) := String → Option (NodeSpecM σ)

/-- One compiled plan step
`{nodeId, type, data, spec: {required, outputs}}`. -/
structure StepM where
  nodeId : String
  type : String
  data : Dict
  specRequired : List String
  specOutputs : List String
deriving DecidableEq, Repr

/-- One compilation error `{code, message, nodeId}`. -/
structure CompErr where
  code : String
  message : String
  nodeId : Option String
deriving DecidableEq, Repr

/-- Result dict of `compile_workflow`. -/
structure CompileResult where
  ok : Bool
  plan : List StepM
  errors : List CompErr
  warnings : List String
deriving DecidableEq, Repr

/-! ## Graph construction (`compile_workflow`, phases 1-2) -/

/-- Node ids of the flow, in node-list order (keys fed to `node_map`). -/
def nodeIds (nodes : List Node) : List String :=
  nodes.map Node.id

/-- Model of `node_map[nid]`: the dict comprehension keeps the LAST node with a given id. -/
def nodeMapGet (nodes : List Node) (nid : String) : Option Node :=
  nodes.reverse.find? (fun n => n.id = nid)

/-- Worker for `dedupFirst`: drop elements already seen. -/
def dedupFirstAux (seen : List String) : List String → List String
  | [] => []
  | x :: rest =>
      if x ∈ seen then dedupFirstAux seen rest
      else x :: dedupFirstAux (x :: seen) rest

/-- Python set/dict key iteration of first occurrences: deduplicated node-id
list keeping each id's first occurrence (insertion order of `in_degree`). -/
def dedupFirst (l : List String) : List String := dedupFirstAux [] l

/-- The edge-validation loop of `compile_workflow`: raises (returns) the first
`INVALID_EDGE` / `UNKNOWN_NODE` error, in edge order. -/
def validateEdges (keys : List String) : List Edge → Option CompErr
  | [] => none
  | e :: rest =>
      if e.source = "" ∨ e.target = "" then
        some ⟨"INVALID_EDGE", s!"Edge con source/target mancante: {e.source}->{e.target}", none⟩
      else if e.source ∉ keys then
        some ⟨"UNKNOWN_NODE", s!"Source node non trovato: {e.source}", some e.source⟩
      else if e.target ∉ keys then
        some ⟨"UNKNOWN_NODE", s!"Target node non trovato: {e.target}", some e.target⟩
      else validateEdges keys rest

/-- Adjacency from edges: `graph[s]` = targets of edges out of `s`, in edge
order, duplicates kept (defaultdict of lists). -/
def adjOf (edges : List Edge) (s : String) : List String :=
  (edges.filter (fun e => e.source = s)).map Edge.target

/-- Initial in-degree: number of edges into `u` (counted with multiplicity).
`Int`-valued because the loop decrements past zero for already-ordered
nodes. -/
def indeg0 (edges : List Edge) (u : String) : Int :=
  ((edges.filter (fun e => e.target = u)).length : Int)

/-- Initial Kahn queue: node ids (first occurrence, node order) that are not
the target of any edge — exactly the keys of `in_degree` holding `0`. -/
def initialQueue (nodes : List Node) (edges : List Edge) : List String :=
  (dedupFirst (nodeIds nodes)).filter
    (fun nid => ¬ edges.any (fun e => e.target = nid))

/-- Inner `for neighbor in graph[current]` loop: decrement each neighbour's
in-degree, collecting (in order) those that hit exactly zero. -/
def processNeighbors : List String → (String → Int) → (String → Int) × List String
  | [], indeg => (indeg, [])
  | n :: rest, indeg =>
      let d := indeg n - 1
      let indeg' := fun x => if x = n then d else indeg x
      let r := processNeighbors rest indeg'
      if d = 0 then (r.1, n :: r.2) else r

/-- Kahn's `while queue:` loop, with explicit fuel.  Returns the `ordered`
list. -/
def kahnLoop (adj : String → List String) :
    Nat → List String → (String → Int) → List String → List String
  | 0, _, _, ordered => ordered
  | _ + 1, [], _, ordered => ordered
  | fuel + 1, current :: rest, indeg, ordered =>
      let r := processNeighbors (adj current) indeg
      kahnLoop adj fuel (rest ++ r.2) r.1 (ordered ++ [current])

/-- Fuel sufficient for the Kahn loop: one iteration per (distinct) node. -/
def kahnFuel (nodes : List Node) : Nat := nodes.length + 1

/-- Topological order produced by phase 3 of `compile_workflow`. -/
def kahnOrder (flow : Flow) : List String :=
  kahnLoop (adjOf flow.edges) (kahnFuel flow.nodes)
    (initialQueue flow.nodes flow.edges) (indeg0 flow.edges) []

/-! ## Producer index and input resolution (phases 5-6) -/

/-- Model of `_build_output_map`: `producers[out]` = ids of ordered nodes whose
registered spec declares `out` among its outputs (a set; order immaterial,
membership is all that is read). -/
def buildOutputMap {σ : Type} (reg : Registry σ) (ordered : List String)
    (nodes : List Node) (out : String) : List String :=
  ordered.filter (fun nid =>
    match nodeMapGet nodes nid with
    | some n =>
        match reg n.type with
        | some spec => out ∈ spec.outputs
        | none => false
    | none => false)

/-- Model of `_resolve_inputs`: for each required field not already present and truthy,
wire the first incoming edge whose source produces the field to a
`$from:<src>:$output:<field>` symbolic reference. -/
def resolveInputs (nodeData : Dict) (incoming : List Edge)
    (producers : String → List String) (required : List String) : Dict :=
  required.foldl
    (fun resolved f =>
      if (dictLookup resolved f).any Value.truthy then resolved
      else
        match incoming.find? (fun e => e.source ∈ producers f) with
        | some e =>
            dictInsert resolved f (.str ("$from:" ++ e.source ++ ":$output:" ++ f))
        | none => resolved)
    nodeData

/-- Missing-field test of `validate_node_data`: absent, `None`, or `""`. -/
def fieldMissing (d : Dict) (f : String) : Bool :=
  match dictLookup d f with
  | none => true
  | some v => v = .null ∨ v = .str ""

/-- Missing required fields of a node's resolved data, in `required` order. -/
def missingFields (required : List String) (d : Dict) : List String :=
  required.filter (fun f => fieldMissing d f)

/-- Model of `_suggest_connections`: producers of the missing fields minus the node
itself (a set in Python; modelled deduplicated in first-appearance order). -/
def suggestConnections (missing : List String)
    (producers : String → List String) (current : String) : List String :=
  (dedupFirst (missing.foldl (fun acc f => acc ++ producers f) [])).filter
    (fun s => s ≠ current)

/-- The per-node body of phase 6: look up the node and its spec, auto-wire
inputs, validate, and emit the compiled step or the first error. -/
def compileStep {σ : Type} (reg : Registry σ) (flow : Flow)
    (producers : String → List String) (nid : String) : Except CompErr StepM :=
  match nodeMapGet flow.nodes nid with
  | none =>
      -- unreachable from `compile_workflow` (nid ∈ ordered ⊆ node_map keys);
      -- a Python KeyError here would surface as COMPILATION_FAILED
      .error ⟨"COMPILATION_FAILED", s!"KeyError: {nid}", none⟩
  | some node =>
      match reg node.type with
      | none =>
          .error ⟨"UNKNOWN_NODE_TYPE", s!"Tipo nodo sconosciuto: {node.type}", some nid⟩
      | some spec =>
          let incoming := flow.edges.filter (fun e => e.target = nid)
          let resolved := resolveInputs node.data incoming producers spec.required
          let missing := missingFields spec.required resolved
          if missing.isEmpty then
            .ok ⟨nid, node.type, resolved, spec.required, spec.outputs⟩
          else
            let suggestions := suggestConnections missing producers nid
            let baseMsg :=
              s!"Input mancanti per {node.type}: " ++ String.intercalate ", " missing
            let msg :=
              if suggestions.isEmpty then baseMsg
              else
                baseMsg ++ s!"\nSuggerimento: collega {nid} con uno di questi nodi: "
                  ++ String.intercalate ", " suggestions
            .error ⟨"MISSING_INPUT", msg, some nid⟩

/-- Phase 6 loop over the topological order; first error aborts. -/
def buildPlan {σ : Type} (reg : Registry σ) (flow : Flow)
    (producers : String → List String) : List String → Except CompErr (List StepM)
  | [] => .ok []
  | nid :: rest =>
      match compileStep reg flow producers nid with
      | .error e => .error e
      | .ok st =>
          match buildPlan reg flow producers rest with
          | .error e => .error e
          | .ok plan => .ok (st :: plan)

/-- The node ids Kahn failed to order (`set(node_map) - set(ordered)`;
Python's set iteration order is unspecified, modelled here in first-occurrence
node order; the SET of named ids is exact). -/
def cycleRemainder (flow : Flow) : List String :=
  (dedupFirst (nodeIds flow.nodes)).filter (fun nid => nid ∉ kahnOrder flow)

/-- The `GRAPH_CYCLE` error message. -/
def cycleMessage (remaining : List String) : String :=
  "Il grafo contiene cicli. Nodi coinvolti: " ++ String.intercalate ", " remaining

/-- The body of `compile_workflow` as an exception-style computation. -/
def compileE {σ : Type} (reg : Registry σ) (flow : Flow) :
    Except CompErr (List StepM) := do
  match validateEdges (nodeIds flow.nodes) flow.edges with
  | some err => .error err
  | none =>
      let ordered := kahnOrder flow
      if ordered.length ≠ flow.nodes.length then
        .error ⟨"GRAPH_CYCLE", cycleMessage (cycleRemainder flow), none⟩
      else
        buildPlan reg flow (buildOutputMap reg ordered flow.nodes) ordered

/-- Model of `compile_workflow`: success gives the plan with no errors; any
`CompilationError` gives an empty plan with that single error. -/
def compileWorkflow {σ : Type} (reg : Registry σ) (flow : Flow) : CompileResult :=
  match compileE reg flow with
  | .ok plan => ⟨true, plan, [], []⟩
  | .error e => ⟨false, [], [e], []⟩

/-! ## Verification of the topological sort (phases 2-4) -/

/-- The directed-edge relation generated by an edge list. -/
def edgeRel (edges : List Edge) (a b : String) : Prop :=
  ∃ e ∈ edges, e.source = a ∧ e.target = b

/-- Acyclicity: no node reaches itself through a nonempty edge path. -/
def Acyclic (edges : List Edge) : Prop :=
  ∀ v, ¬ Relation.TransGen (edgeRel edges) v v

/-- Edges still unaccounted for: in-degree of `u` restricted to sources not
yet emitted into `ordered`. -/
def remInto (E : List Edge) (ordered : List String) (u : String) : Int :=
  ((E.filter (fun e => e.target = u ∧ e.source ∉ ordered)).length : Int)

theorem dedupFirstAux_mem (l : List String) :
    ∀ seen x, x ∈ dedupFirstAux seen l ↔ x ∈ l ∧ x ∉ seen := by
  induction l with
  | nil => intro seen x; simp [dedupFirstAux]
  | cons y rest ih =>
      intro seen x
      rw [dedupFirstAux]
      by_cases hy : y ∈ seen
      · rw [if_pos hy, ih]
        constructor
        · rintro ⟨h1, h2⟩
          exact ⟨List.mem_cons_of_mem _ h1, h2⟩
        · rintro ⟨h1, h2⟩
          rcases List.mem_cons.mp h1 with he | h1
          · exact absurd (he ▸ hy) h2
          · exact ⟨h1, h2⟩
      · rw [if_neg hy]
        by_cases hxy : x = y
        · subst hxy
          simp [hy]
        · rw [List.mem_cons]
          constructor
          · rintro (he | hr)
            · exact absurd he hxy
            · have := (ih _ x).mp hr
              refine ⟨List.mem_cons_of_mem _ this.1, fun hs => this.2 (List.mem_cons_of_mem _ hs)⟩
          · rintro ⟨h1, h2⟩
            rcases List.mem_cons.mp h1 with he | h1
            · exact absurd he hxy
            · refine Or.inr ((ih _ x).mpr ⟨h1, fun hs => ?_⟩)
              rcases List.mem_cons.mp hs with he | hs
              · exact hxy he
              · exact h2 hs

theorem dedupFirst_mem (l : List String) (x : String) :
    x ∈ dedupFirst l ↔ x ∈ l := by
  rw [dedupFirst, dedupFirstAux_mem]
  simp

theorem dedupFirstAux_nodup (l : List String) :
    ∀ seen, (dedupFirstAux seen l).Nodup := by
  induction l with
  | nil => intro seen; simp [dedupFirstAux]
  | cons y rest ih =>
      intro seen
      rw [dedupFirstAux]
      by_cases hy : y ∈ seen
      · rw [if_pos hy]; exact ih seen
      · rw [if_neg hy]
        refine List.nodup_cons.mpr ⟨?_, ih _⟩
        intro hmem
        have := (dedupFirstAux_mem _ _ _).mp hmem
        exact this.2 (List.mem_cons_self _ _)

theorem dedupFirst_nodup (l : List String) : (dedupFirst l).Nodup :=
  dedupFirstAux_nodup l []

theorem processNeighbors_fst (ns : List String) (indeg : String → Int) (x : String) :
    (processNeighbors ns indeg).1 x = indeg x - ns.count x := by
  induction ns generalizing indeg with
  | nil => simp [processNeighbors]
  | cons n rest ih =>
      simp only [processNeighbors]
      by_cases hx : x = n
      · subst hx
        split <;>
          simp [ih, List.count_cons_self] <;> omega
      · split <;>
          · rw [ih]
            simp [hx, List.count_cons_of_ne (by simpa using hx)]

theorem processNeighbors_snd_mem (ns : List String) (indeg : String → Int)
    (h : ∀ x, (ns.count x : Int) ≤ indeg x) (x : String) :
    x ∈ (processNeighbors ns indeg).2 ↔ x ∈ ns ∧ indeg x = ns.count x := by
  induction ns generalizing indeg with
  | nil => simp [processNeighbors]
  | cons n rest ih =>
      have hn := h n
      rw [List.count_cons_self] at hn
      have hrest : ∀ y, (rest.count y : Int) ≤
          (fun z => if z = n then indeg n - 1 else indeg z) y := by
        intro y
        by_cases hy : y = n
        · subst hy; simp only [if_pos rfl]; push_cast at hn ⊢; omega
        · have := h y
          rw [List.count_cons_of_ne (by simpa using hy)] at this
          simpa [hy] using this
      simp only [processNeighbors]
      by_cases hx : x = n
      · subst hx
        split
        next h0 =>
          have hc0 : rest.count x = 0 := by push_cast at hn; omega
          simp [List.count_cons_self, hc0]
          omega
        next h0 =>
          rw [ih _ hrest]
          simp only [if_pos rfl, List.mem_cons, true_or, true_and,
            List.count_cons_self]
          constructor
          · rintro ⟨hmem, heq⟩
            push_cast; push_cast at heq; omega
          · intro heq
            have hxr : x ∈ rest := by
              by_contra hxr
              have : rest.count x = 0 := List.count_eq_zero.mpr hxr
              rw [this] at heq
              simp at heq
              exact h0 (by omega)
            exact ⟨hxr, by push_cast; push_cast at heq; omega⟩
      · have hcount : (n :: rest).count x = rest.count x :=
          List.count_cons_of_ne (by simpa using hx) _
        split <;>
        · rw [List.mem_cons] at *
          first
          | (rw [List.mem_cons, ih _ hrest]
             simp [hx, hcount])
          | (rw [ih _ hrest]
             simp [hx, hcount])

theorem processNeighbors_snd_nodup (ns : List String) (indeg : String → Int)
    (h : ∀ x, (ns.count x : Int) ≤ indeg x) :
    (processNeighbors ns indeg).2.Nodup := by
  induction ns generalizing indeg with
  | nil => simp [processNeighbors]
  | cons n rest ih =>
      have hn := h n
      rw [List.count_cons_self] at hn
      have hrest : ∀ y, (rest.count y : Int) ≤
          (fun z => if z = n then indeg n - 1 else indeg z) y := by
        intro y
        by_cases hy : y = n
        · subst hy; simp only [if_pos rfl]; push_cast at hn ⊢; omega
        · have := h y
          rw [List.count_cons_of_ne (by simpa using hy)] at this
          simpa [hy] using this
      simp only [processNeighbors]
      split
      next h0 =>
        refine List.nodup_cons.mpr ⟨?_, ih _ hrest⟩
        intro hmem
        rw [processNeighbors_snd_mem _ _ hrest] at hmem
        obtain ⟨hmem, heq⟩ := hmem
        simp only [if_pos rfl] at heq
        have : rest.count n ≠ 0 := fun hc => (List.count_eq_zero.mp hc) hmem
        omega
      next h0 => exact ih _ hrest

theorem countP_ext {α : Type} (l : List α) (p q : α → Bool)
    (h : ∀ a ∈ l, p a = q a) : l.countP p = l.countP q := by
  induction l with
  | nil => rfl
  | cons a rest ih =>
      rw [List.countP_cons, List.countP_cons, h a (List.mem_cons_self a rest),
        ih (fun b hb => h b (List.mem_cons_of_mem a hb))]

theorem countP_split {α : Type} (l : List α) (p q : α → Bool) :
    l.countP p = l.countP (fun a => p a && q a) + l.countP (fun a => p a && !q a) := by
  induction l with
  | nil => rfl
  | cons a rest ih =>
      simp only [List.countP_cons, ih]
      cases hp : p a <;> cases hq : q a <;> simp <;> omega

theorem adjOf_count (E : List Edge) (c x : String) :
    (adjOf E c).count x = E.countP (fun e => e.source = c ∧ e.target = x) := by
  induction E with
  | nil => rfl
  | cons e rest ih =>
      simp only [adjOf] at ih ⊢
      rw [List.filter_cons, List.countP_cons]
      by_cases hs : e.source = c
      · by_cases ht : e.target = x
        · simp [hs, ht, ih, List.count_cons_self]
        · simp [hs, ht, ih, List.count_cons_of_ne (fun h => ht h.symm)]
      · simp [hs, ih]

theorem remInto_eq_countP (E : List Edge) (ordered : List String) (u : String) :
    remInto E ordered u =
      (E.countP (fun e => e.target = u ∧ e.source ∉ ordered) : Int) := by
  unfold remInto
  rw [List.countP_eq_length_filter]

theorem remInto_nonneg (E : List Edge) (ordered : List String) (u : String) :
    0 ≤ remInto E ordered u := by
  unfold remInto
  positivity

theorem remInto_append_single (E : List Edge) (ordered : List String)
    (c : String) (hc : c ∉ ordered) (u : String) :
    remInto E (ordered ++ [c]) u =
      remInto E ordered u - ((adjOf E c).count u : Int) := by
  rw [remInto_eq_countP, remInto_eq_countP, adjOf_count]
  have h1 := countP_split E (fun e => e.target = u ∧ e.source ∉ ordered)
      (fun e => e.source = c)
  have h2 : E.countP (fun e =>
        (decide (e.target = u ∧ e.source ∉ ordered)) && (decide (e.source = c)))
      = E.countP (fun e => e.source = c ∧ e.target = u) := by
    refine countP_ext _ _ _ (fun e _ => ?_)
    by_cases h : e.source = c ∧ e.target = u
    · simp [h.1, h.2, hc]
    · by_cases hsc : e.source = c
      · have : ¬ e.target = u := fun ht => h ⟨hsc, ht⟩
        simp [hsc, this]
      · simp [hsc]
  have h3 : E.countP (fun e =>
        (decide (e.target = u ∧ e.source ∉ ordered)) && !(decide (e.source = c)))
      = E.countP (fun e => e.target = u ∧ e.source ∉ ordered ++ [c]) := by
    refine countP_ext _ _ _ (fun e _ => ?_)
    by_cases ht : e.target = u
    · by_cases hsc : e.source = c
      · simp [ht, hsc, hc]
      · by_cases hso : e.source ∈ ordered
        · simp [ht, hsc, hso]
        · simp [ht, hsc, hso]
    · simp [ht]
  rw [h2, h3] at h1
  omega

/-- Loop invariant of Kahn's algorithm over edge list `E` and node-id
universe `ids`. -/
structure KInv (E : List Edge) (ids : List String)
    (ordered queue : List String) (indeg : String → Int) : Prop where
  nodup : (ordered ++ queue).Nodup
  subset : ∀ x ∈ ordered ++ queue, x ∈ ids
  acct : ∀ u, indeg u = remInto E ordered u
  queueSources : ∀ u ∈ queue, ∀ e ∈ E, e.target = u → e.source ∈ ordered
  topo : ∀ e ∈ E, e.target ∈ ordered → [e.source, e.target].Sublist ordered
  zeroMem : ∀ u ∈ ids, indeg u = 0 → u ∈ ordered ++ queue

theorem kinv_init (E : List Edge) (nodes : List Node) :
    KInv E (nodeIds nodes) [] (initialQueue nodes E) (indeg0 E) := by
  constructor
  · simp only [List.nil_append]
    exact (dedupFirst_nodup _).filter _
  · intro x hx
    simp only [List.nil_append, initialQueue, List.mem_filter] at hx
    exact (dedupFirst_mem _ _).mp hx.1
  · intro u
    unfold indeg0 remInto
    congr 1
    refine congrArg _ (List.filter_congr (fun e _ => ?_))
    simp
  · intro u hu e he ht
    rw [initialQueue, List.mem_filter] at hu
    have h2 := hu.2
    simp only [decide_eq_true_eq, List.any_eq_true, not_exists, not_and] at h2
    exact absurd ht (h2 e he)
  · intro e _ ht
    simp at ht
  · intro u hu h0
    simp only [List.nil_append, initialQueue, List.mem_filter]
    refine ⟨(dedupFirst_mem _ _).mpr hu, ?_⟩
    simp only [decide_eq_true_eq, List.any_eq_true, not_exists, not_and]
    intro e he ht
    unfold indeg0 at h0
    have hmem : e ∈ E.filter (fun e => e.target = u) :=
      List.mem_filter.mpr ⟨he, by simp [ht]⟩
    have hpos : 0 < (E.filter (fun e => e.target = u)).length :=
      List.length_pos.mpr (fun hnil => by rw [hnil] at hmem; simp at hmem)
    omega

theorem adjOf_mem (E : List Edge) (c x : String) :
    x ∈ adjOf E c ↔ ∃ e ∈ E, e.source = c ∧ e.target = x := by
  simp only [adjOf, List.mem_map, List.mem_filter, decide_eq_true_eq]
  constructor
  · rintro ⟨e, ⟨he, hs⟩, ht⟩
    exact ⟨e, he, hs, ht⟩
  · rintro ⟨e, he, hs, ht⟩
    exact ⟨e, ⟨he, hs⟩, ht⟩

theorem countP_le_of_imp {α : Type} (l : List α) (p q : α → Bool)
    (h : ∀ a ∈ l, p a = true → q a = true) : l.countP p ≤ l.countP q := by
  induction l with
  | nil => exact Nat.le_refl _
  | cons a rest ih =>
      rw [List.countP_cons, List.countP_cons]
      have hrest := ih (fun b hb => h b (List.mem_cons_of_mem a hb))
      cases hpa : p a
      · cases hq : q a <;> simp <;> omega
      · rw [h a (List.mem_cons_self a rest) hpa]
        simp
        omega

theorem kinv_step (E : List Edge) (ids : List String)
    (hE : ∀ e ∈ E, e.source ∈ ids ∧ e.target ∈ ids)
    (current : String) (rest ordered : List String) (indeg : String → Int)
    (inv : KInv E ids ordered (current :: rest) indeg) :
    KInv E ids (ordered ++ [current])
      (rest ++ (processNeighbors (adjOf E current) indeg).2)
      (processNeighbors (adjOf E current) indeg).1 := by
  have hsplit := List.nodup_append.mp inv.nodup
  have hcur : current ∉ ordered := fun hmem =>
    hsplit.2.2 hmem (List.mem_cons_self current rest)
  have hcount : ∀ x, (((adjOf E current).count x : Int)) ≤ indeg x := by
    intro x
    rw [inv.acct x, adjOf_count, remInto_eq_countP]
    have := countP_le_of_imp E (fun e => e.source = current ∧ e.target = x)
        (fun e => e.target = x ∧ e.source ∉ ordered)
        (fun e _ hp => by
          simp only [decide_eq_true_eq] at hp ⊢
          exact ⟨hp.2, hp.1 ▸ hcur⟩)
    exact_mod_cast this
  have memQ := processNeighbors_snd_mem (adjOf E current) indeg hcount
  have hfst := processNeighbors_fst (adjOf E current) indeg
  -- every member of the new queue has all in-edge sources inside
  -- ordered ++ [current], and is fresh
  have hsources : ∀ x ∈ (processNeighbors (adjOf E current) indeg).2,
      ∀ e ∈ E, e.target = x → e.source ∈ ordered ++ [current] := by
    intro x hx e he ht
    obtain ⟨hxadj, hxeq⟩ := (memQ x).mp hx
    have hzero : E.countP (fun e =>
        (decide (e.target = x ∧ e.source ∉ ordered)) && !(decide (e.source = current))) = 0 := by
      have h1 := countP_split E (fun e => e.target = x ∧ e.source ∉ ordered)
          (fun e => e.source = current)
      have h2 : E.countP (fun e =>
            (decide (e.target = x ∧ e.source ∉ ordered)) && (decide (e.source = current)))
          = E.countP (fun e => e.source = current ∧ e.target = x) := by
        refine countP_ext _ _ _ (fun e _ => ?_)
        by_cases hsc : e.source = current
        · by_cases htx : e.target = x
          · simp [hsc, htx, hcur]
          · simp [hsc, htx]
        · simp [hsc]
      have h3 : (remInto E ordered x : Int) = ((adjOf E current).count x : Int) := by
        rw [← inv.acct x, hxeq]
      rw [remInto_eq_countP, adjOf_count] at h3
      have h3' : E.countP (fun e => e.target = x ∧ e.source ∉ ordered)
          = E.countP (fun e => e.source = current ∧ e.target = x) := by exact_mod_cast h3
      omega
    rw [List.countP_eq_zero] at hzero
    have := hzero e he
    simp only [Bool.and_eq_true, decide_eq_true_eq, Bool.not_eq_true',
      decide_eq_false_iff_not, not_and, not_not] at this
    by_cases hso : e.source ∈ ordered
    · exact List.mem_append_left _ hso
    · have := this ⟨ht, hso⟩
      simp [this]
  have hfresh : ∀ x ∈ (processNeighbors (adjOf E current) indeg).2,
      x ∉ ordered ++ current :: rest := by
    intro x hx hmem
    obtain ⟨hxadj, _⟩ := (memQ x).mp hx
    obtain ⟨e₀, he₀, hs₀, ht₀⟩ := (adjOf_mem E current x).mp hxadj
    rcases List.mem_append.mp hmem with hord | hq
    · have := inv.topo e₀ he₀ (ht₀ ▸ hord)
      have hc : current ∈ ordered := by
        have hsub := this.subset
        exact hs₀ ▸ hsub (by simp)
      exact hcur hc
    · have := inv.queueSources x hq e₀ he₀ ht₀
      rw [hs₀] at this
      exact hcur this
  constructor
  · have heq : (ordered ++ [current]) ++
        (rest ++ (processNeighbors (adjOf E current) indeg).2)
        = (ordered ++ current :: rest) ++ (processNeighbors (adjOf E current) indeg).2 := by
      simp
    rw [heq]
    exact inv.nodup.append (processNeighbors_snd_nodup _ _ hcount)
      (fun x hmem hq => hfresh x hq hmem)
  · intro x hx
    rcases List.mem_append.mp hx with h1 | h2
    · rcases List.mem_append.mp h1 with ho | hc
      · exact inv.subset x (List.mem_append_left _ ho)
      · simp only [List.mem_singleton] at hc
        exact hc ▸ inv.subset current (List.mem_append_right _ (by simp))
    · rcases List.mem_append.mp h2 with hr | hq
      · exact inv.subset x (List.mem_append_right _ (List.mem_cons_of_mem _ hr))
      · obtain ⟨hxadj, _⟩ := (memQ x).mp hq
        obtain ⟨e₀, he₀, _, ht₀⟩ := (adjOf_mem E current x).mp hxadj
        exact ht₀ ▸ (hE e₀ he₀).2
  · intro u
    rw [hfst u, inv.acct u, remInto_append_single E ordered current hcur u]
  · intro u hu e he ht
    rcases List.mem_append.mp hu with hr | hq
    · exact List.mem_append_left _ (inv.queueSources u (List.mem_cons_of_mem _ hr) e he ht)
    · exact hsources u hq e he ht
  · intro e he ht
    rcases List.mem_append.mp ht with ho | hc
    · exact (inv.topo e he ho).trans (List.sublist_append_left _ _)
    · simp only [List.mem_singleton] at hc
      have hsrc : e.source ∈ ordered :=
        inv.queueSources current (by simp) e he hc
      rw [hc]
      exact List.Sublist.append (List.singleton_sublist.mpr hsrc) (List.Sublist.refl [current])
  · intro u hu h0
    rw [hfst u] at h0
    by_cases hmem : u ∈ adjOf E current
    · have : indeg u = (adjOf E current).count u := by omega
      have hq : u ∈ (processNeighbors (adjOf E current) indeg).2 :=
        (memQ u).mpr ⟨hmem, this⟩
      exact List.mem_append_right _ (List.mem_append_right _ hq)
    · have hc0 : (adjOf E current).count u = 0 := List.count_eq_zero.mpr hmem
      rw [hc0] at h0
      have : indeg u = 0 := by omega
      have := inv.zeroMem u hu this
      rcases List.mem_append.mp this with ho | hq
      · exact List.mem_append_left _ (List.mem_append_left _ ho)
      · rcases List.mem_cons.mp hq with hcu | hr
        · exact List.mem_append_left _ (List.mem_append_right _ (by simp [hcu]))
        · exact List.mem_append_right _ (List.mem_append_left _ hr)

theorem kahnLoop_inv (E : List Edge) (ids : List String)
    (hE : ∀ e ∈ E, e.source ∈ ids ∧ e.target ∈ ids) (fuel : Nat) :
    ∀ ordered queue indeg, KInv E ids ordered queue indeg →
    ∃ queue' indeg',
      KInv E ids (kahnLoop (adjOf E) fuel queue indeg ordered) queue' indeg' := by
  induction fuel with
  | zero =>
      intro o q d inv
      exact ⟨q, d, inv⟩
  | succ n ih =>
      intro o q d inv
      match q with
      | [] => exact ⟨[], d, inv⟩
      | c :: rest =>
          simp only [kahnLoop]
          exact ih _ _ _ (kinv_step E ids hE c rest o d inv)

theorem kahnLoop_empty (E : List Edge) (ids : List String)
    (hE : ∀ e ∈ E, e.source ∈ ids ∧ e.target ∈ ids) (fuel : Nat) :
    ∀ ordered queue indeg, KInv E ids ordered queue indeg →
    ids.length + 1 ≤ fuel + ordered.length →
    ∃ indeg',
      KInv E ids (kahnLoop (adjOf E) fuel queue indeg ordered) [] indeg' := by
  induction fuel with
  | zero =>
      intro o q d inv hb
      exfalso
      have hnodup : o.Nodup := (List.nodup_append.mp inv.nodup).1
      have hsub : ∀ x ∈ o, x ∈ ids := fun x hx =>
        inv.subset x (List.mem_append_left _ hx)
      have hlen : o.length ≤ ids.length := by
        calc o.length = o.toFinset.card := (List.toFinset_card_of_nodup hnodup).symm
          _ ≤ ids.toFinset.card := Finset.card_le_card
              (fun x hx => List.mem_toFinset.mpr (hsub x (List.mem_toFinset.mp hx)))
          _ ≤ ids.length := List.toFinset_card_le ids
      omega
  | succ n ih =>
      intro o q d inv hb
      match q with
      | [] =>
          simp only [kahnLoop]
          exact ⟨d, inv⟩
      | c :: rest =>
          simp only [kahnLoop]
          refine ih _ _ _ (kinv_step E ids hE c rest o d inv) ?_
          simp only [List.length_append, List.length_singleton]
          omega

theorem kahn_complete (E : List Edge) (ids : List String)
    (hE : ∀ e ∈ E, e.source ∈ ids ∧ e.target ∈ ids)
    (hacyc : Acyclic E) (o' : List String) (d' : String → Int)
    (inv : KInv E ids o' [] d') : ∀ u ∈ ids, u ∈ o' := by
  classical
  by_contra h
  push_neg at h
  obtain ⟨u0, hu0, hu0n⟩ := h
  have hpred : ∀ u, u ∈ ids → u ∉ o' → ∃ s, s ∈ ids ∧ s ∉ o' ∧ edgeRel E s u := by
    intro u hu hun
    have hnz : d' u ≠ 0 := by
      intro h0
      have := inv.zeroMem u hu h0
      rw [List.append_nil] at this
      exact hun this
    have hpos : 0 < remInto E o' u := by
      have h1 := inv.acct u
      have h2 := remInto_nonneg E o' u
      omega
    rw [remInto_eq_countP] at hpos
    have hpn : 0 < E.countP (fun e => e.target = u ∧ e.source ∉ o') := by
      exact_mod_cast hpos
    obtain ⟨e, he, hp⟩ := List.countP_pos_iff.mp hpn
    simp only [decide_eq_true_eq] at hp
    exact ⟨e.source, (hE e he).1, hp.2, ⟨e, he, rfl, hp.1⟩⟩
  let R : Finset String := ids.toFinset.filter (fun x => x ∉ o')
  have hu0R : u0 ∈ R := by
    simp only [R, Finset.mem_filter, List.mem_toFinset]
    exact ⟨hu0, by simpa using hu0n⟩
  have hstep : ∀ x, x ∈ R → ∃ s, s ∈ R ∧ edgeRel E s x := by
    intro x hx
    simp only [R, Finset.mem_filter, List.mem_toFinset, decide_eq_true_eq] at hx
    obtain ⟨s, hs1, hs2, hs3⟩ := hpred x hx.1 hx.2
    refine ⟨s, ?_, hs3⟩
    simp only [R, Finset.mem_filter, List.mem_toFinset]
    exact ⟨hs1, by simpa using hs2⟩
  let F : String → String := fun x =>
    if hx : x ∈ R then Classical.choose (hstep x hx) else x
  have hF : ∀ x, x ∈ R → F x ∈ R ∧ edgeRel E (F x) x := by
    intro x hx
    simp only [F, dif_pos hx]
    exact Classical.choose_spec (hstep x hx)
  let g : Nat → String := fun n => Nat.rec u0 (fun _ acc => F acc) n
  have hg0 : g 0 = u0 := rfl
  have hgs : ∀ n, g (n + 1) = F (g n) := fun n => rfl
  have hgR : ∀ n, g n ∈ R := by
    intro n
    induction n with
    | zero => exact hu0R
    | succ m ihm =>
        rw [hgs m]
        exact (hF (g m) ihm).1
  have hgE : ∀ n, edgeRel E (g (n + 1)) (g n) := by
    intro n
    rw [hgs n]
    exact (hF (g n) (hgR n)).2
  have hmap : ∀ i ∈ Finset.range (R.card + 1), g i ∈ R := fun i _ => hgR i
  have hcard : R.card < (Finset.range (R.card + 1)).card := by
    rw [Finset.card_range]
    omega
  obtain ⟨i, _, j, _, hij, hgij⟩ :=
    Finset.exists_ne_map_eq_of_card_lt_of_maps_to hcard hmap
  have hchain : ∀ d k, Relation.TransGen (edgeRel E) (g (k + d + 1)) (g k) := by
    intro d
    induction d with
    | zero => exact fun k => Relation.TransGen.single (hgE k)
    | succ m ihm =>
        intro k
        have h1 : k + (m + 1) + 1 = (k + m + 1) + 1 := by omega
        rw [h1]
        exact Relation.TransGen.head (hgE (k + m + 1)) (ihm k)
  rcases Nat.lt_or_ge i j with hlt | hge
  · have hj : j = i + (j - i - 1) + 1 := by omega
    have := hchain (j - i - 1) i
    rw [← hj, hgij] at this
    exact hacyc (g j) this
  · have hlt : j < i := by omega
    have hi : i = j + (i - j - 1) + 1 := by omega
    have := hchain (i - j - 1) j
    rw [← hi, ← hgij] at this
    exact hacyc (g i) this

theorem sublist_pair_indexOf (l : List String) (hnd : l.Nodup) (a b : String)
    (h : [a, b].Sublist l) : l.indexOf a < l.indexOf b := by
  induction l with
  | nil => simp at h
  | cons x rest ih =>
      cases h with
      | cons _ h' =>
          have ha : a ∈ rest := h'.subset (by simp)
          have hb : b ∈ rest := h'.subset (by simp)
          have hnd' := List.nodup_cons.mp hnd
          have hxa : x ≠ a := fun he => hnd'.1 (he ▸ ha)
          have hxb : x ≠ b := fun he => hnd'.1 (he ▸ hb)
          rw [List.indexOf_cons_ne _ hxa, List.indexOf_cons_ne _ hxb]
          have := ih hnd'.2 h'
          omega
      | cons₂ _ h' =>
          have hb : b ∈ rest := h'.subset (by simp)
          have hnd' := List.nodup_cons.mp hnd
          have hab : a ≠ b := fun he => hnd'.1 (he ▸ hb)
          rw [List.indexOf_cons_self, List.indexOf_cons_ne _ hab]
          omega

theorem kahnOrder_inv (flow : Flow)
    (hE : ∀ e ∈ flow.edges, e.source ∈ nodeIds flow.nodes ∧ e.target ∈ nodeIds flow.nodes) :
    ∃ queue' indeg',
      KInv flow.edges (nodeIds flow.nodes) (kahnOrder flow) queue' indeg' := by
  unfold kahnOrder
  exact kahnLoop_inv _ _ hE _ _ _ _ (kinv_init flow.edges flow.nodes)

theorem kahnOrder_nodup (flow : Flow)
    (hE : ∀ e ∈ flow.edges, e.source ∈ nodeIds flow.nodes ∧ e.target ∈ nodeIds flow.nodes) :
    (kahnOrder flow).Nodup := by
  obtain ⟨q', d', inv⟩ := kahnOrder_inv flow hE
  exact (List.nodup_append.mp inv.nodup).1

theorem kahnOrder_subset (flow : Flow)
    (hE : ∀ e ∈ flow.edges, e.source ∈ nodeIds flow.nodes ∧ e.target ∈ nodeIds flow.nodes) :
    ∀ x ∈ kahnOrder flow, x ∈ nodeIds flow.nodes := by
  obtain ⟨q', d', inv⟩ := kahnOrder_inv flow hE
  exact fun x hx => inv.subset x (List.mem_append_left _ hx)

theorem kahnOrder_topo (flow : Flow)
    (hE : ∀ e ∈ flow.edges, e.source ∈ nodeIds flow.nodes ∧ e.target ∈ nodeIds flow.nodes) :
    ∀ e ∈ flow.edges, e.target ∈ kahnOrder flow →
      [e.source, e.target].Sublist (kahnOrder flow) := by
  obtain ⟨q', d', inv⟩ := kahnOrder_inv flow hE
  exact inv.topo

theorem kahnOrder_complete (flow : Flow)
    (hE : ∀ e ∈ flow.edges, e.source ∈ nodeIds flow.nodes ∧ e.target ∈ nodeIds flow.nodes)
    (hacyc : Acyclic flow.edges) :
    ∀ u ∈ nodeIds flow.nodes, u ∈ kahnOrder flow := by
  have hb : (nodeIds flow.nodes).length + 1 ≤ kahnFuel flow.nodes + ([] : List String).length := by
    simp [kahnFuel, nodeIds]
  obtain ⟨d', inv⟩ := kahnLoop_empty flow.edges (nodeIds flow.nodes) hE
    (kahnFuel flow.nodes) [] (initialQueue flow.nodes flow.edges)
    (indeg0 flow.edges) (kinv_init flow.edges flow.nodes) hb
  exact kahn_complete _ _ hE hacyc _ _ inv

theorem cycle_not_mem_of_topo (E : List Edge) (l : List String) (hnd : l.Nodup)
    (htopo : ∀ e ∈ E, e.target ∈ l → [e.source, e.target].Sublist l)
    (v : String) (hv : Relation.TransGen (edgeRel E) v v) : v ∉ l := by
  intro hvl
  have hstep : ∀ a b, edgeRel E a b → b ∈ l →
      a ∈ l ∧ l.indexOf a < l.indexOf b := by
    rintro a b ⟨e, he, hs, ht⟩ hb
    have hsub := htopo e he (by rw [ht]; exact hb)
    rw [hs, ht] at hsub
    exact ⟨hsub.subset (by simp), sublist_pair_indexOf l hnd a b hsub⟩
  have htg : ∀ a b, Relation.TransGen (edgeRel E) a b → b ∈ l →
      a ∈ l ∧ l.indexOf a < l.indexOf b := by
    intro a b h
    induction h with
    | single h1 => exact hstep _ _ h1
    | tail hT hR ih =>
        intro hb
        have h1 := hstep _ _ hR hb
        have h2 := ih h1.1
        exact ⟨h2.1, h2.2.trans h1.2⟩
  have := htg v v hv hvl
  omega

theorem length_lt_of_missing (l ids : List String) (hnd : l.Nodup)
    (hsub : ∀ x ∈ l, x ∈ ids) (v : String) (hvids : v ∈ ids) (hvl : v ∉ l) :
    l.length < ids.length := by
  have h1 : l.toFinset ⊆ ids.toFinset := fun x hx =>
    List.mem_toFinset.mpr (hsub x (List.mem_toFinset.mp hx))
  have h2 : l.toFinset ⊂ ids.toFinset := by
    rw [Finset.ssubset_def]
    exact ⟨h1, fun hback =>
      hvl (List.mem_toFinset.mp (hback (List.mem_toFinset.mpr hvids)))⟩
  calc l.length = l.toFinset.card := (List.toFinset_card_of_nodup hnd).symm
    _ < ids.toFinset.card := Finset.card_lt_card h2
    _ ≤ ids.length := List.toFinset_card_le ids

theorem validateEdges_none (keys : List String) (edges : List Edge)
    (h : ∀ e ∈ edges, e.source ≠ "" ∧ e.target ≠ "" ∧ e.source ∈ keys ∧ e.target ∈ keys) :
    validateEdges keys edges = none := by
  induction edges with
  | nil => rfl
  | cons e rest ih =>
      obtain ⟨h1, h2, h3, h4⟩ := h e (List.mem_cons_self e rest)
      rw [validateEdges, if_neg (by tauto), if_neg (not_not_intro h3),
        if_neg (not_not_intro h4)]
      exact ih (fun e' he' => h e' (List.mem_cons_of_mem _ he'))

theorem nodeMapGet_mem (nodes : List Node) (nid : String)
    (h : nid ∈ nodeIds nodes) :
    ∃ n, nodeMapGet nodes nid = some n ∧ n ∈ nodes ∧ n.id = nid := by
  have hex : ∃ n ∈ nodes.reverse, (fun n => n.id = nid : Node → Bool) n = true := by
    obtain ⟨n, hn, hid⟩ := List.mem_map.mp h
    exact ⟨n, List.mem_reverse.mpr hn, by simp [hid]⟩
  have hsome : (nodes.reverse.find? (fun n => n.id = nid)).isSome :=
    List.find?_isSome.mpr hex
  obtain ⟨n, hn⟩ := Option.isSome_iff_exists.mp hsome
  refine ⟨n, hn, List.mem_reverse.mp (List.mem_of_find?_eq_some hn), ?_⟩
  have := List.find?_some hn
  simpa using this

theorem compileStep_ok {σ : Type} (reg : Registry σ) (flow : Flow)
    (producers : String → List String) (nid : String) (n : Node) (spec : NodeSpecM σ)
    (hm : nodeMapGet flow.nodes nid = some n) (hr : reg n.type = some spec)
    (hmiss : missingFields spec.required (resolveInputs n.data
      (flow.edges.filter (fun e => e.target = nid)) producers spec.required) = []) :
    compileStep reg flow producers nid = .ok
      ⟨nid, n.type,
        resolveInputs n.data (flow.edges.filter (fun e => e.target = nid))
          producers spec.required,
        spec.required, spec.outputs⟩ := by
  unfold compileStep
  rw [hm]
  dsimp only
  rw [hr]
  dsimp only
  simp [hmiss]

theorem buildPlan_ok {σ : Type} (reg : Registry σ) (flow : Flow)
    (producers : String → List String) :
    ∀ order : List String,
    (∀ nid ∈ order, ∃ st, compileStep reg flow producers nid = .ok st ∧ st.nodeId = nid) →
    ∃ plan, buildPlan reg flow producers order = .ok plan ∧
      plan.map StepM.nodeId = order := by
  intro order
  induction order with
  | nil => intro _; exact ⟨[], rfl, rfl⟩
  | cons nid rest ih =>
      intro h
      obtain ⟨st, hst, hid⟩ := h nid (List.mem_cons_self _ _)
      obtain ⟨plan, hplan, hmap⟩ := ih (fun x hx => h x (List.mem_cons_of_mem _ hx))
      refine ⟨st :: plan, ?_, by simp [hmap, hid]⟩
      rw [buildPlan, hst]
      dsimp only
      rw [hplan]

theorem compileE_ok_char {σ : Type} (reg : Registry σ) (flow : Flow)
    (hve : validateEdges (nodeIds flow.nodes) flow.edges = none)
    (hlen : (kahnOrder flow).length = flow.nodes.length)
    (hsteps : ∀ nid ∈ kahnOrder flow, ∃ st,
      compileStep reg flow (buildOutputMap reg (kahnOrder flow) flow.nodes) nid = .ok st ∧
      st.nodeId = nid) :
    ∃ plan, compileE reg flow = .ok plan ∧ plan.map StepM.nodeId = kahnOrder flow := by
  obtain ⟨plan, hbp, hmap⟩ := buildPlan_ok reg flow _ (kahnOrder flow) hsteps
  refine ⟨plan, ?_, hmap⟩
  unfold compileE
  rw [hve]
  simp [hlen, hbp]

theorem compileE_cycle_char {σ : Type} (reg : Registry σ) (flow : Flow)
    (hve : validateEdges (nodeIds flow.nodes) flow.edges = none)
    (hlen : (kahnOrder flow).length ≠ flow.nodes.length) :
    compileE reg flow =
      .error ⟨"GRAPH_CYCLE", cycleMessage (cycleRemainder flow), none⟩ := by
  unfold compileE
  rw [hve]
  simp [hlen]

/-- Claim C1: For every acyclic input graph (unique node ids, edges between
existing nodes) whose nodes all have registered types and satisfiable
required fields, `compile_workflow` returns ok with a plan whose length
equals the number of nodes and whose order is a valid topological order of
the edge relation: every edge's source step strictly precedes its target
step in the plan. -/
theorem compile_acyclic_topo_plan {σ : Type} (reg : Registry σ) (flow : Flow)
    (hids : (nodeIds flow.nodes).Nodup)
    (hE : ∀ e ∈ flow.edges, e.source ≠ "" ∧ e.target ≠ "" ∧
      e.source ∈ nodeIds flow.nodes ∧ e.target ∈ nodeIds flow.nodes)
    (hacyc : Acyclic flow.edges)
    (hreg : ∀ n ∈ flow.nodes, (reg n.type).isSome)
    (hval : ∀ nid ∈ kahnOrder flow, ∀ n, nodeMapGet flow.nodes nid = some n →
      ∀ spec, reg n.type = some spec →
      missingFields spec.required (resolveInputs n.data
        (flow.edges.filter (fun e => e.target = nid))
        (buildOutputMap reg (kahnOrder flow) flow.nodes) spec.required) = []) :
    (compileWorkflow reg flow).ok = true ∧
    (compileWorkflow reg flow).errors = [] ∧
    (compileWorkflow reg flow).plan.length = flow.nodes.length ∧
    ∀ e ∈ flow.edges,
      e.source ∈ (compileWorkflow reg flow).plan.map StepM.nodeId ∧
      e.target ∈ (compileWorkflow reg flow).plan.map StepM.nodeId ∧
      ((compileWorkflow reg flow).plan.map StepM.nodeId).indexOf e.source <
        ((compileWorkflow reg flow).plan.map StepM.nodeId).indexOf e.target := by
  have hE2 : ∀ e ∈ flow.edges,
      e.source ∈ nodeIds flow.nodes ∧ e.target ∈ nodeIds flow.nodes :=
    fun e he => ⟨(hE e he).2.2.1, (hE e he).2.2.2⟩
  have hve := validateEdges_none (nodeIds flow.nodes) flow.edges hE
  have hcompl := kahnOrder_complete flow hE2 hacyc
  have hnd := kahnOrder_nodup flow hE2
  have hsubs := kahnOrder_subset flow hE2
  have hlen : (kahnOrder flow).length = flow.nodes.length := by
    have h1 : (kahnOrder flow).toFinset = (nodeIds flow.nodes).toFinset := by
      apply Finset.ext
      intro x
      simp only [List.mem_toFinset]
      exact ⟨fun hx => hsubs x hx, fun hx => hcompl x hx⟩
    calc (kahnOrder flow).length = (kahnOrder flow).toFinset.card :=
        (List.toFinset_card_of_nodup hnd).symm
      _ = (nodeIds flow.nodes).toFinset.card := by rw [h1]
      _ = (nodeIds flow.nodes).length := List.toFinset_card_of_nodup hids
      _ = flow.nodes.length := by simp [nodeIds]
  have hsteps : ∀ nid ∈ kahnOrder flow, ∃ st,
      compileStep reg flow (buildOutputMap reg (kahnOrder flow) flow.nodes) nid = .ok st ∧
      st.nodeId = nid := by
    intro nid hnid
    obtain ⟨n, hm, hmem, hid⟩ := nodeMapGet_mem flow.nodes nid (hsubs nid hnid)
    obtain ⟨spec, hr⟩ := Option.isSome_iff_exists.mp (hreg n hmem)
    have hmiss := hval nid hnid n hm spec hr
    exact ⟨_, compileStep_ok reg flow _ nid n spec hm hr hmiss, rfl⟩
  obtain ⟨plan, hok, hmap⟩ := compileE_ok_char reg flow hve hlen hsteps
  have hcw : compileWorkflow reg flow = ⟨true, plan, [], []⟩ := by
    unfold compileWorkflow
    rw [hok]
  rw [hcw]
  refine ⟨rfl, rfl, ?_, ?_⟩
  · show plan.length = flow.nodes.length
    have := congrArg List.length hmap
    rw [List.length_map] at this
    omega
  · intro e he
    show e.source ∈ plan.map StepM.nodeId ∧ e.target ∈ plan.map StepM.nodeId ∧
      (plan.map StepM.nodeId).indexOf e.source < (plan.map StepM.nodeId).indexOf e.target
    have hsrc : e.source ∈ kahnOrder flow := hcompl _ (hE2 e he).1
    have htgt : e.target ∈ kahnOrder flow := hcompl _ (hE2 e he).2
    have hsub := kahnOrder_topo flow hE2 e he htgt
    have hidx := sublist_pair_indexOf _ hnd _ _ hsub
    rw [hmap]
    exact ⟨hsrc, htgt, hidx⟩

theorem transGen_src {α : Type} (r : α → α → Prop) (a b : α)
    (h : Relation.TransGen r a b) : ∃ c, r a c := by
  induction h with
  | single h1 => exact ⟨_, h1⟩
  | tail hT hR ih => exact ih

/-- Claim C2: For every input graph whose edge relation contains a cycle
(all edges well formed, between existing nodes), compilation fails with
`ok = false`, the single error `GRAPH_CYCLE`, an empty plan, and the error
message naming exactly the node ids Kahn's algorithm could not order. -/
theorem compile_cycle_fails {σ : Type} (reg : Registry σ) (flow : Flow)
    (hE : ∀ e ∈ flow.edges, e.source ≠ "" ∧ e.target ≠ "" ∧
      e.source ∈ nodeIds flow.nodes ∧ e.target ∈ nodeIds flow.nodes)
    (hcyc : ∃ v, Relation.TransGen (edgeRel flow.edges) v v) :
    (compileWorkflow reg flow).ok = false ∧
    (compileWorkflow reg flow).plan = [] ∧
    (compileWorkflow reg flow).errors =
      [⟨"GRAPH_CYCLE", cycleMessage (cycleRemainder flow), none⟩] ∧
    cycleRemainder flow ≠ [] ∧
    (∀ x, x ∈ cycleRemainder flow ↔
      x ∈ nodeIds flow.nodes ∧ x ∉ kahnOrder flow) := by
  have hE2 : ∀ e ∈ flow.edges,
      e.source ∈ nodeIds flow.nodes ∧ e.target ∈ nodeIds flow.nodes :=
    fun e he => ⟨(hE e he).2.2.1, (hE e he).2.2.2⟩
  have hve := validateEdges_none (nodeIds flow.nodes) flow.edges hE
  obtain ⟨v, hv⟩ := hcyc
  have hvids : v ∈ nodeIds flow.nodes := by
    obtain ⟨c, e, he, hs, _⟩ := transGen_src _ _ _ hv
    exact hs ▸ (hE2 e he).1
  have hnd := kahnOrder_nodup flow hE2
  have hvnot : v ∉ kahnOrder flow :=
    cycle_not_mem_of_topo flow.edges (kahnOrder flow) hnd
      (kahnOrder_topo flow hE2) v hv
  have hlt : (kahnOrder flow).length < (nodeIds flow.nodes).length :=
    length_lt_of_missing _ _ hnd (kahnOrder_subset flow hE2) v hvids hvnot
  have hlen : (kahnOrder flow).length ≠ flow.nodes.length := by
    have : (nodeIds flow.nodes).length = flow.nodes.length := by simp [nodeIds]
    omega
  have hcw : compileWorkflow reg flow =
      ⟨false, [], [⟨"GRAPH_CYCLE", cycleMessage (cycleRemainder flow), none⟩], []⟩ := by
    unfold compileWorkflow
    rw [compileE_cycle_char reg flow hve hlen]
  rw [hcw]
  refine ⟨rfl, rfl, rfl, ?_, ?_⟩
  · have hvrem : v ∈ cycleRemainder flow := by
      unfold cycleRemainder
      rw [List.mem_filter]
      exact ⟨(dedupFirst_mem _ _).mpr hvids, by simpa using hvnot⟩
    exact List.ne_nil_of_mem hvrem
  · intro x
    unfold cycleRemainder
    rw [List.mem_filter, dedupFirst_mem]
    simp

/-! ## Test fixtures for witnesses and counterexamples -/

/-- Witness fixture registry: `createX` produces `objectId` (returning a
generic `id` key), `importFile` consumes `objectId`/`filePath`,
`failStep` always fails.  Handlers count their invocations in `σ = Nat`. -/
def testReg : Registry Nat := fun ty =>
  if ty = "createX" then
    some ⟨["name"], ["objectId"],
      fun _ s => ({ ok := true, data := [("id", .str "obj-1")] }, s + 1)⟩
  else if ty = "importFile" then
    some ⟨["objectId", "filePath"], [],
      fun _ s => ({ ok := true, data := [] }, s + 1)⟩
  else if ty = "failStep" then
    some ⟨[], [],
      fun _ s => ({ ok := false, error := some "boom", code := some "X" }, s + 1)⟩
  else none

/-- The spec's two-node scenario: `n1:createX{name:"Foo"}`,
`n2:importFile{filePath:"a.wav"}`, edge `n1→n2`. -/
def flowW : Flow :=
  ⟨[⟨"n1", "createX", [("name", .str "Foo")]⟩,
    ⟨"n2", "importFile", [("filePath", .str "a.wav")]⟩],
   [⟨"n1", "n2"⟩]⟩

theorem flowW_acyclic : Acyclic flowW.edges := by
  have hchar : ∀ a b, Relation.TransGen (edgeRel flowW.edges) a b →
      a = "n1" ∧ b = "n2" := by
    intro a b h
    induction h with
    | single h1 =>
        obtain ⟨e, he, hs, ht⟩ := h1
        have he' : e = ⟨"n1", "n2"⟩ := by simpa [flowW] using he
        subst he'
        exact ⟨hs.symm, ht.symm⟩
    | tail hT hR ih =>
        obtain ⟨e, he, hs, ht⟩ := hR
        have he' : e = ⟨"n1", "n2"⟩ := by simpa [flowW] using he
        subst he'
        exact absurd (hs.trans ih.2) (by decide)
  intro v hv
  have h := hchar v v hv
  exact absurd (h.1.symm.trans h.2) (by decide)

theorem flowW_hval : ∀ nid ∈ kahnOrder flowW, ∀ n,
    nodeMapGet flowW.nodes nid = some n →
    ∀ spec, testReg n.type = some spec →
    missingFields spec.required (resolveInputs n.data
      (flowW.edges.filter (fun e => e.target = nid))
      (buildOutputMap testReg (kahnOrder flowW) flowW.nodes) spec.required) = [] := by
  have hko : kahnOrder flowW = ["n1", "n2"] := by decide
  intro nid hnid n hm spec hr
  rw [hko] at hnid
  simp only [List.mem_cons, List.not_mem_nil, or_false] at hnid
  rcases hnid with h1 | h1 <;> subst h1
  · have hm' : nodeMapGet flowW.nodes "n1" =
        some ⟨"n1", "createX", [("name", .str "Foo")]⟩ := by decide
    rw [hm'] at hm
    injection hm with hm
    subst hm
    have hr' : testReg "createX" = some ⟨["name"], ["objectId"],
        fun _ s => ({ ok := true, data := [("id", .str "obj-1")] }, s + 1)⟩ := rfl
    rw [hr'] at hr
    injection hr with hr
    subst hr
    decide
  · have hm' : nodeMapGet flowW.nodes "n2" =
        some ⟨"n2", "importFile", [("filePath", .str "a.wav")]⟩ := by decide
    rw [hm'] at hm
    injection hm with hm
    subst hm
    have hr' : testReg "importFile" = some ⟨["objectId", "filePath"], [],
        fun _ s => ({ ok := true, data := [] }, s + 1)⟩ := rfl
    rw [hr'] at hr
    injection hr with hr
    subst hr
    decide

/-- Witness for C1: the spec's two-node scenario compiles to a two-step,
edge-respecting plan. -/
theorem compile_acyclic_topo_plan_witness :
    (compileWorkflow testReg flowW).ok = true ∧
    (compileWorkflow testReg flowW).plan.length = flowW.nodes.length ∧
    ((compileWorkflow testReg flowW).plan.map StepM.nodeId).indexOf "n1" <
      ((compileWorkflow testReg flowW).plan.map StepM.nodeId).indexOf "n2" := by
  have h := compile_acyclic_topo_plan testReg flowW (by decide) (by decide)
    flowW_acyclic (by decide) flowW_hval
  exact ⟨h.1, h.2.2.1, (h.2.2.2 ⟨"n1", "n2"⟩ (by decide)).2.2⟩

/-- A two-node cycle: `a → b → a`. -/
def flowC : Flow :=
  ⟨[⟨"a", "createX", [("name", .str "A")]⟩,
    ⟨"b", "createX", [("name", .str "B")]⟩],
   [⟨"a", "b"⟩, ⟨"b", "a"⟩]⟩

theorem flowC_cyc : ∃ v, Relation.TransGen (edgeRel flowC.edges) v v := by
  refine ⟨"a", Relation.TransGen.head
    ⟨⟨"a", "b"⟩, by simp [flowC], rfl, rfl⟩
    (Relation.TransGen.single ⟨⟨"b", "a"⟩, by simp [flowC], rfl, rfl⟩)⟩

/-- Witness for C2: the two-node cycle fails with `GRAPH_CYCLE`, an empty
plan, and both cycle nodes named in the remainder. -/
theorem compile_cycle_fails_witness :
    (compileWorkflow testReg flowC).ok = false ∧
    (compileWorkflow testReg flowC).plan = [] ∧
    (compileWorkflow testReg flowC).errors =
      [⟨"GRAPH_CYCLE", cycleMessage (cycleRemainder flowC), none⟩] ∧
    "a" ∈ cycleRemainder flowC := by
  have h := compile_cycle_fails testReg flowC (by decide) flowC_cyc
  refine ⟨h.1, h.2.1, h.2.2.1, ?_⟩
  exact (h.2.2.2.2 "a").mpr (by decide)

/-! ## Auto-wiring (C8) and result shape (C9) -/

theorem dictLookup_insert_self (d : Dict) (k : String) (v : Value) :
    dictLookup (dictInsert d k v) k = some v := by
  induction d with
  | nil => simp [dictInsert, dictLookup, List.find?]
  | cons p rest ih =>
      rw [dictInsert]
      by_cases hk : p.1 = k
      · rw [if_pos hk]
        simp [dictLookup, List.find?]
      · rw [if_neg hk]
        simp only [dictLookup, List.find?, hk]
        simpa [dictLookup] using ih

theorem dictLookup_insert_ne (d : Dict) (k : String) (v : Value) (f : String)
    (h : k ≠ f) : dictLookup (dictInsert d k v) f = dictLookup d f := by
  induction d with
  | nil => simp [dictInsert, dictLookup, List.find?, h]
  | cons p rest ih =>
      rw [dictInsert]
      by_cases hk : p.1 = k
      · rw [if_pos hk]
        simp only [dictLookup, List.find?, h, hk]
        rfl
      · rw [if_neg hk]
        by_cases hf : p.1 = f
        · simp [dictLookup, List.find?, hf]
        · simp only [dictLookup, List.find?, hf]
          simpa [dictLookup] using ih

/-- The `$from` reference string is nonempty, hence Python-truthy. -/
theorem refString_truthy (src f : String) :
    (Value.str ("$from:" ++ src ++ ":$output:" ++ f)).truthy = true := by
  simp only [Value.truthy, ne_eq, decide_eq_true_eq]
  intro h
  have := congrArg String.length h
  simp only [String.length_append] at this
  have h6 : ("$from:" : String).length = 6 := rfl
  have h0 : ("" : String).length = 0 := rfl
  omega

theorem resolveInputs_preserves (incoming : List Edge)
    (producers : String → List String) (f : String) :
    ∀ (required : List String) (resolved : Dict),
    ((dictLookup resolved f).any Value.truthy) = true →
    dictLookup (resolveInputs resolved incoming producers required) f =
      dictLookup resolved f := by
  intro required
  induction required with
  | nil => intro resolved _; rfl
  | cons g rest ih =>
      intro resolved htruthy
      rw [resolveInputs, List.foldl_cons]
      by_cases hg : ((dictLookup resolved g).any Value.truthy) = true
      · rw [if_pos hg]
        exact ih resolved htruthy
      · rw [if_neg hg]
        cases hf : incoming.find? (fun e => e.source ∈ producers g) with
        | none => exact ih resolved htruthy
        | some e =>
            have hgf : g ≠ f := by
              intro he
              rw [he] at hg
              exact hg htruthy
            have hpres := dictLookup_insert_ne resolved g
              (.str ("$from:" ++ e.source ++ ":$output:" ++ g)) f hgf
            exact (ih _ (by rw [hpres]; exact htruthy)).trans hpres

/-- Claim C8: `_resolve_inputs`: a required field already present with a
truthy value is left unchanged; a required field without a truthy value
whose first matching incoming edge (edge order, source in the producer
index) is `e` is set to the symbolic reference `$from:<e.source>:$output:<field>`
— one producer only, no combination. -/
theorem resolveInputs_spec (nodeData : Dict) (incoming : List Edge)
    (producers : String → List String) (required : List String) (f : String) :
    (((dictLookup nodeData f).any Value.truthy) = true →
      dictLookup (resolveInputs nodeData incoming producers required) f =
        dictLookup nodeData f) ∧
    (f ∈ required → ((dictLookup nodeData f).any Value.truthy) = false →
      ∀ e, incoming.find? (fun e => e.source ∈ producers f) = some e →
      dictLookup (resolveInputs nodeData incoming producers required) f =
        some (.str ("$from:" ++ e.source ++ ":$output:" ++ f))) := by
  constructor
  · exact fun h => resolveInputs_preserves incoming producers f required nodeData h
  · induction required generalizing nodeData with
    | nil => intro hfmem _ _ _; simp at hfmem
    | cons g rest ih =>
        intro hfmem hnottruthy e hfind
        rw [resolveInputs, List.foldl_cons]
        by_cases hgf : g = f
        · subst hgf
          rw [if_neg (by rw [hnottruthy]; simp), hfind]
          have hself := dictLookup_insert_self nodeData g
            (.str ("$from:" ++ e.source ++ ":$output:" ++ g))
          exact (resolveInputs_preserves incoming producers g rest
            (dictInsert nodeData g (.str ("$from:" ++ e.source ++ ":$output:" ++ g)))
            (by rw [hself]; simp [refString_truthy])).trans hself
        · have hfr : f ∈ rest := by
            rcases List.mem_cons.mp hfmem with h1 | h1
            · exact absurd h1.symm hgf
            · exact h1
          by_cases hg : ((dictLookup nodeData g).any Value.truthy) = true
          · rw [if_pos hg]
            exact ih nodeData hfr hnottruthy e hfind
          · rw [if_neg hg]
            cases hf2 : incoming.find? (fun e => e.source ∈ producers g) with
            | none => exact ih nodeData hfr hnottruthy e hfind
            | some e2 =>
                have hpres := dictLookup_insert_ne nodeData g
                  (.str ("$from:" ++ e2.source ++ ":$output:" ++ g)) f hgf
                exact ih _ hfr (by rw [hpres]; exact hnottruthy) e hfind

/-- Witness for C8 at the spec's scenario: `n2.objectId` is wired to
`$from:n1:$output:objectId`, while the already-present `filePath` is kept. -/
theorem resolveInputs_spec_witness :
    dictLookup (resolveInputs [("filePath", .str "a.wav")] [⟨"n1", "n2"⟩]
      (buildOutputMap testReg (kahnOrder flowW) flowW.nodes)
      ["objectId", "filePath"]) "objectId" =
      some (.str ("$from:" ++ "n1" ++ ":$output:" ++ "objectId")) ∧
    dictLookup (resolveInputs [("filePath", .str "a.wav")] [⟨"n1", "n2"⟩]
      (buildOutputMap testReg (kahnOrder flowW) flowW.nodes)
      ["objectId", "filePath"]) "filePath" = some (.str "a.wav") := by
  constructor
  · exact (resolveInputs_spec [("filePath", .str "a.wav")] [⟨"n1", "n2"⟩]
      (buildOutputMap testReg (kahnOrder flowW) flowW.nodes)
      ["objectId", "filePath"] "objectId").2 (by decide) (by decide)
      ⟨"n1", "n2"⟩ (by decide)
  · exact ((resolveInputs_spec [("filePath", .str "a.wav")] [⟨"n1", "n2"⟩]
      (buildOutputMap testReg (kahnOrder flowW) flowW.nodes)
      ["objectId", "filePath"] "filePath").1 (by decide)).trans (by decide)

theorem buildPlan_length {σ : Type} (reg : Registry σ) (flow : Flow)
    (producers : String → List String) :
    ∀ (order : List String) (plan : List StepM),
    buildPlan reg flow producers order = .ok plan → plan.length = order.length := by
  intro order
  induction order with
  | nil =>
      intro plan h
      rw [buildPlan] at h
      injection h with h
      rw [← h]
      rfl
  | cons nid rest ih =>
      intro plan h
      rw [buildPlan] at h
      cases hst : compileStep reg flow producers nid with
      | error e => rw [hst] at h; simp at h
      | ok st =>
          rw [hst] at h
          dsimp only at h
          cases hbp : buildPlan reg flow producers rest with
          | error e => rw [hbp] at h; simp at h
          | ok plan' =>
              rw [hbp] at h
              dsimp only at h
              injection h with h
              rw [← h]
              simp [ih plan' hbp]

theorem compileE_ok_length {σ : Type} (reg : Registry σ) (flow : Flow)
    (plan : List StepM) (h : compileE reg flow = .ok plan) :
    plan.length = flow.nodes.length := by
  unfold compileE at h
  cases hve : validateEdges (nodeIds flow.nodes) flow.edges with
  | some err => rw [hve] at h; simp at h
  | none =>
      rw [hve] at h
      dsimp only at h
      split at h
      · simp at h
      · next hlen =>
          rw [not_ne_iff] at hlen
          rw [buildPlan_length reg flow _ _ plan h]
          exact hlen

/-- Claim C9, amended: For every input flow with at least one node,
`compile_workflow` returns one of exactly two shapes: a non-empty plan with
no errors, or an empty plan with at least one error.  (A flow with zero
nodes returns ok with an empty plan and no errors — the counterexample.) -/
theorem compile_result_shapes {σ : Type} (reg : Registry σ) (flow : Flow)
    (hne : flow.nodes ≠ []) :
    ((compileWorkflow reg flow).plan ≠ [] ∧ (compileWorkflow reg flow).errors = []) ∨
    ((compileWorkflow reg flow).plan = [] ∧ (compileWorkflow reg flow).errors ≠ []) := by
  unfold compileWorkflow
  cases hce : compileE reg flow with
  | ok plan =>
      left
      constructor
      · show plan ≠ []
        have hlen := compileE_ok_length reg flow plan hce
        intro hnil
        rw [hnil] at hlen
        exact hne (List.length_eq_zero.mp hlen.symm)
      · rfl
  | error e =>
      right
      exact ⟨rfl, by simp⟩

/-- Counterexample to C9 as stated: the empty flow compiles to `ok = true`
with an empty plan AND an empty error list — a shape the claim says never
occurs. -/
theorem compile_result_shapes_counterexample :
    (compileWorkflow testReg ⟨[], []⟩).ok = true ∧
    (compileWorkflow testReg ⟨[], []⟩).plan = [] ∧
    (compileWorkflow testReg ⟨[], []⟩).errors = [] := by decide

/-- Witness for the amended C9. -/
theorem compile_result_shapes_witness :
    ((compileWorkflow testReg flowW).plan ≠ [] ∧
      (compileWorkflow testReg flowW).errors = []) ∨
    ((compileWorkflow testReg flowW).plan = [] ∧
      (compileWorkflow testReg flowW).errors ≠ []) :=
  compile_result_shapes testReg flowW (by decide)

/-! ## Execution engine (`workflow_runner_v2.py`) -/

/-- Run context: `nodeId -> {output_name: value}`. -/
abbrev Ctx := List (String × Dict)

def ctxLookup (c : Ctx) (k : String) : Option Dict :=
  (c.find? (fun p => p.1 = k)).map (fun p => p.2)

def ctxInsert : Ctx → String → Dict → Ctx
  | [], k, v => [(k, v)]
  | (k', v') :: rest, k, v =>
      if k' = k then (k, v) :: rest else (k', v') :: ctxInsert rest k v

/-- Python `sub in s` on character lists. -/
def containsL (pat : List Char) : List Char → Bool
  | [] => pat.isPrefixOf []
  | c :: rest => pat.isPrefixOf (c :: rest) || containsL pat rest

/-- Python `str.replace` (all, non-overlapping, left to right) on character
lists, with fuel for structural recursion; each iteration consumes at least
one character, so `length + 1` fuel always completes.  (The empty-pattern
case, which Python treats specially, is never reached: both template
patterns are nonempty literals.) -/
def replaceAllFuel (pat rep : List Char) : Nat → List Char → List Char
  | 0, l => l
  | _ + 1, [] => []
  | fuel + 1, c :: rest =>
      if pat ≠ [] ∧ pat.isPrefixOf (c :: rest) then
        rep ++ replaceAllFuel pat rep fuel ((c :: rest).drop pat.length)
      else
        c :: replaceAllFuel pat rep fuel rest

def replaceAll (s pat rep : String) : String :=
  ⟨replaceAllFuel pat.toList rep.toList (s.toList.length + 1) s.toList⟩

/-- Python `s.split(":")` on character lists. -/
def splitCA : List Char → List (List Char)
  | [] => [[]]
  | ch :: rest =>
      let r := splitCA rest
      if ch = ':' then [] :: r
      else
        match r with
        | h :: t => (ch :: h) :: t
        | [] => [[ch]]

def splitOnColon (s : String) : List String :=
  (splitCA s.toList).map (fun l => ⟨l⟩)

def tsPat : List Char := "${timestamp}".toList

def hmPat : List Char := "${HHmmss}".toList

/-- Resolve one value of `_resolve_symbolic_refs`: a string starting with
`$from:` is parsed as `$from:<node>:$output:<field>` and looked up in the
context (a `KeyError` becomes `Except.error` with the Python message);
otherwise `${timestamp}` / `${HHmmss}` templates are substituted with the
wall-clock strings `tsFull` / `tsHM`. -/
def resolveValue (tsFull tsHM : String) (ctx : Ctx) : Value → Except String Value
  | .str s =>
      if ("$from:".toList).isPrefixOf s.toList then
        match splitOnColon s with
        | [_, sourceNode, out, fieldName] =>
            if out = "$output" then
              match ctxLookup ctx sourceNode with
              | none => .error s!"Nodo source non trovato nel contesto: {sourceNode}"
              | some m =>
                  match dictLookup m fieldName with
                  | none => .error s!"Output non trovato: {fieldName} da nodo {sourceNode}"
                  | some v => .ok v
            else .error s!"Formato $from invalido: {s}"
        | _ => .error s!"Formato $from invalido: {s}"
      else if containsL tsPat s.toList then
        .ok (.str (replaceAll s "${timestamp}" tsFull))
      else if containsL hmPat s.toList then
        .ok (.str (replaceAll s "${HHmmss}" tsHM))
      else .ok (.str s)
  | v => .ok v

/-- Model of `_resolve_symbolic_refs`: rebuild the dict in order; first failure
raises. -/
def resolveSymbolicRefs (tsFull tsHM : String) : Dict → Ctx → Except String Dict
  | [], _ => .ok []
  | (k, v) :: rest, ctx =>
      match resolveValue tsFull tsHM ctx v with
      | .error msg => .error msg
      | .ok v' =>
          match resolveSymbolicRefs tsFull tsHM rest ctx with
          | .error msg => .error msg
          | .ok rest' => .ok ((k, v') :: rest')

/-- Model of `_stable_dict`: drop the known-volatile keys (by name) before hashing. -/
def stableDict (d : Dict) : Dict :=
  d.filter (fun p => p.1 ∉ (["timestamp", "executionId", "_internal"] : List String))

def charListLe : List Char → List Char → Bool
  | [], _ => true
  | _ :: _, [] => false
  | a :: as, b :: bs =>
      if a.toNat < b.toNat then true
      else if b.toNat < a.toNat then false
      else charListLe as bs

def keyLe (a b : String) : Bool := charListLe a.toList b.toList

def insertSortedKey (p : String × Value) : Dict → Dict
  | [] => [p]
  | q :: rest => if keyLe p.1 q.1 then p :: q :: rest else q :: insertSortedKey p rest

/-- Canonical key order of `json.dumps(..., sort_keys=True)`. -/
def sortByKey : Dict → Dict
  | [] => []
  | p :: rest => insertSortedKey p (sortByKey rest)

/-- The idempotency key of `_idempotency_key`, modelled injectively by the
canonical payload `{nodeId, type, data}` serialized with sorted keys — a
stand-in for its SHA-256 digest (equal payloads hash equal; distinct
payloads are assumed to hash apart). -/
structure IdemKey where
  nodeId : String
  type : String
  data : Dict
deriving DecidableEq, Repr

def idempotencyKey (nodeId nodeType : String) (data : Dict) : IdemKey :=
  ⟨nodeId, nodeType, sortByKey (stableDict data)⟩

/-- Model of `_export_outputs_to_context` (handlers in this model always return
dict-shaped data, so the Python attribute-access branch is unreachable). -/
def exportOutputsToContext (nodeId : String) (resultData : Dict)
    (outputFields : List String) (ctx : Ctx) : Ctx :=
  let base := (ctxLookup ctx nodeId).getD []
  let m := outputFields.foldl (fun m field =>
    if field = "objectId" ∧ dictContains resultData "id" then
      dictInsert m field ((dictLookup resultData "id").getD .null)
    else
      match dictLookup resultData field with
      | some v => dictInsert m field v
      | none => m) base
  ctxInsert ctx nodeId m

/-- One element of the per-run `results` list (its four dict shapes). -/
inductive Entry where
  | skipped (node : String) (reason : String)
  | idem (node : String) (idemKey : IdemKey) (cached : StepResult)
  | ran (node : String) (ok : Bool) (result : StepResult) (idemKey : IdemKey) (data : Dict)
  | failedInfra (node : String) (code : String) (error : String)
deriving DecidableEq, Repr

/-- Marked `idempotent` (replayed from memo). -/
def Entry.isIdem : Entry → Bool
  | .idem _ _ _ => true
  | _ => false

/-- A fresh handler dispatch. -/
def Entry.isRan : Entry → Bool
  | .ran _ _ _ _ _ => true
  | _ => false

def Entry.node : Entry → String
  | .skipped n _ => n
  | .idem n _ _ => n
  | .ran n _ _ _ _ => n
  | .failedInfra n _ _ => n

/-- The run-local idempotency memo `idem_key -> result`. -/
abbrev Memo := List (IdemKey × StepResult)

def memoFind (m : Memo) (k : IdemKey) : Option StepResult :=
  (m.find? (fun p => p.1 = k)).map (fun p => p.2)

def memoInsert : Memo → IdemKey → StepResult → Memo
  | [], k, v => [(k, v)]
  | (k', v') :: rest, k, v =>
      if k' = k then (k, v) :: rest else (k', v') :: memoInsert rest k v

/-- One `execute_workflow_v2` return dict.  Keys absent from a given Python
return (e.g. `stopped`/`stopAt` on success, `plan` outside dry runs) carry
their neutral defaults here; `executionId`/`timestamp` metadata is not
modelled. -/
structure RunOutcome where
  ok : Bool
  results : List Entry
  stopped : Bool := false
  stopAt : Option String := none
  errors : List CompErr := []
  dryRun : Bool := false
  planOut : List StepM := []
deriving DecidableEq, Repr

/-- Steps 2-9 of the engine loop of `execute_workflow_v2`, over the compiled
plan.  `skipUntil` is the `skip_until` resume flag; `acc` the `results` so
far; `s` the external world threaded through the handlers. -/
def execLoop {σ : Type} (reg : Registry σ) (tsFull tsHM : String)
    (resumeFrom : Option String) (forceRerun : Bool) :
    List StepM → Bool → Ctx → Memo → List Entry → σ → RunOutcome × σ
  | [], _, _, _, acc, s => ({ ok := true, results := acc }, s)
  | step :: rest, skipUntil, ctx, memo, acc, s =>
      if skipUntil ∧ some step.nodeId ≠ resumeFrom then
        execLoop reg tsFull tsHM resumeFrom forceRerun rest skipUntil ctx memo
          (acc ++ [.skipped step.nodeId "resume_from"]) s
      else
        match resolveSymbolicRefs tsFull tsHM step.data ctx with
        | .error msg =>
            ({ ok := false, stopped := true, stopAt := some step.nodeId,
               results := acc ++ [.failedInfra step.nodeId "RESOLUTION_FAILED"
                 ("Impossibile risolvere riferimento: " ++ msg)] }, s)
        | .ok resolvedData =>
            let key := idempotencyKey step.nodeId step.type resolvedData
            if ¬ forceRerun ∧ (memoFind memo key).isSome then
              let cached := (memoFind memo key).getD ⟨false, [], none, none⟩
              let ctx' := if cached.ok then
                  exportOutputsToContext step.nodeId cached.data step.specOutputs ctx
                else ctx
              execLoop reg tsFull tsHM resumeFrom forceRerun rest false ctx' memo
                (acc ++ [.idem step.nodeId key cached]) s
            else
              match reg step.type with
              | none =>
                  ({ ok := false, stopped := true, stopAt := some step.nodeId,
                     results := acc ++ [.failedInfra step.nodeId "UNKNOWN_NODE_TYPE"
                       ("Tipo nodo non supportato: " ++ step.type)] }, s)
              | some spec =>
                  let rs := spec.run resolvedData s
                  let memo' := memoInsert memo key rs.1
                  let acc' := acc ++ [.ran step.nodeId rs.1.ok rs.1 key resolvedData]
                  if rs.1.ok then
                    execLoop reg tsFull tsHM resumeFrom forceRerun rest false
                      (exportOutputsToContext step.nodeId rs.1.data step.specOutputs ctx)
                      memo' acc' rs.2
                  else
                    ({ ok := false, stopped := true, stopAt := some step.nodeId,
                       results := acc' }, rs.2)

/-- Model of `execute_workflow_v2`: compile, short-circuit on compilation failure or
dry run, then execute the plan with a FRESH empty context and memo. -/
def executeWorkflowV2 {σ : Type} (reg : Registry σ) (tsFull tsHM : String)
    (flow : Flow) (dryRun : Bool) (resumeFrom : Option String)
    (forceRerun : Bool) (s : σ) : RunOutcome × σ :=
  let compilation := compileWorkflow reg flow
  if ¬ compilation.ok then
    ({ ok := false, results := [], stopped := true, stopAt := none,
       errors := compilation.errors }, s)
  else if dryRun then
    ({ ok := true, results := [], dryRun := true, planOut := compilation.plan }, s)
  else
    execLoop reg tsFull tsHM resumeFrom forceRerun compilation.plan
      resumeFrom.isSome [] [] [] s

/-- Claim C5: Fail-fast: when the engine reaches a step (any prior outcomes
`acc`, any pending steps `rest`) whose handler returns `ok = false`, the run
returns immediately with `ok = false`, `stopped = true`, `stopAt` the failing
step's nodeId, and `results` exactly the prior outcomes plus the failing
step's entry.  The result does not depend on `rest`: no later plan step is
executed and none appears in `results`. -/
theorem execLoop_halt_on_failure {σ : Type} (reg : Registry σ)
    (tsFull tsHM : String) (resumeFrom : Option String) (forceRerun : Bool)
    (step : StepM) (rest : List StepM) (ctx : Ctx) (memo : Memo)
    (acc : List Entry) (s : σ) (resolvedData : Dict)
    (hres : resolveSymbolicRefs tsFull tsHM step.data ctx = .ok resolvedData)
    (hmemo : forceRerun = true ∨
      memoFind memo (idempotencyKey step.nodeId step.type resolvedData) = none)
    (spec : NodeSpecM σ) (hspec : reg step.type = some spec)
    (result : StepResult) (s' : σ)
    (hrun : spec.run resolvedData s = (result, s'))
    (hfail : result.ok = false) :
    execLoop reg tsFull tsHM resumeFrom forceRerun (step :: rest) false ctx memo acc s =
      ({ ok := false, stopped := true, stopAt := some step.nodeId,
         results := acc ++ [.ran step.nodeId false result
           (idempotencyKey step.nodeId step.type resolvedData) resolvedData] }, s') := by
  rw [execLoop, if_neg (by simp)]
  rw [hres]
  dsimp only
  rw [if_neg (by
    rcases hmemo with h | h
    · simp [h]
    · simp [h])]
  rw [hspec]
  dsimp only
  rw [hrun]
  dsimp only
  rw [if_neg (by simp [hfail]), hfail]

/-- Witness for C5: a failing `n2` stops the run with `stopAt = "n2"`; the
pending `n3` step is dropped. -/
theorem execLoop_halt_on_failure_witness :
    execLoop testReg "t" "t" none false
      [⟨"n2", "failStep", [], [], []⟩, ⟨"n3", "createX", [("name", .str "N")], ["name"], ["objectId"]⟩]
      false [] [] [] (0 : Nat) =
      ({ ok := false, stopped := true, stopAt := some "n2",
         results := [.ran "n2" false ⟨false, [], some "boom", some "X"⟩
           (idempotencyKey "n2" "failStep" []) []] }, 1) := by
  have h := execLoop_halt_on_failure testReg "t" "t" none false
    ⟨"n2", "failStep", [], [], []⟩
    [⟨"n3", "createX", [("name", .str "N")], ["name"], ["objectId"]⟩]
    [] [] [] (0 : Nat) [] rfl (Or.inr rfl)
    ⟨[], [], fun _ s => (⟨false, [], some "boom", some "X"⟩, s + 1)⟩ rfl
    ⟨false, [], some "boom", some "X"⟩ 1 rfl rfl
  simpa using h

/-- The value `_export_outputs_to_context` selects for an output field: the
generic `id` key takes precedence for `objectId`; otherwise the
identically-named key. -/
def exportedValue (resultData : Dict) (field : String) : Option Value :=
  if field = "objectId" ∧ dictContains resultData "id" then
    dictLookup resultData "id"
  else dictLookup resultData field

theorem ctxLookup_insert_self (c : Ctx) (k : String) (v : Dict) :
    ctxLookup (ctxInsert c k v) k = some v := by
  induction c with
  | nil => simp [ctxInsert, ctxLookup, List.find?]
  | cons p rest ih =>
      rw [ctxInsert]
      by_cases hk : p.1 = k
      · rw [if_pos hk]
        simp [ctxLookup, List.find?]
      · rw [if_neg hk]
        simp only [ctxLookup, List.find?, hk]
        simpa [ctxLookup] using ih

theorem exportFold_preserve (resultData : Dict) (f : String) (w : Value)
    (hw : exportedValue resultData f = some w) :
    ∀ (fields : List String) (base : Dict), dictLookup base f = some w →
    dictLookup (fields.foldl (fun m field =>
      if field = "objectId" ∧ dictContains resultData "id" then
        dictInsert m field ((dictLookup resultData "id").getD .null)
      else
        match dictLookup resultData field with
        | some v => dictInsert m field v
        | none => m) base) f = some w := by
  intro fields
  induction fields with
  | nil => intro base hb; exact hb
  | cons g rest ih =>
      intro base hb
      rw [List.foldl_cons]
      by_cases hgf : g = f
      · subst hgf
        unfold exportedValue at hw
        by_cases hcond : g = "objectId" ∧ dictContains resultData "id" = true
        · rw [if_pos hcond] at hw ⊢
          refine ih _ ?_
          rw [dictLookup_insert_self, hw]
          rfl
        · rw [if_neg hcond] at hw ⊢
          rw [hw]
          exact ih _ (dictLookup_insert_self base g w)
      · refine ih _ ?_
        by_cases hcond : g = "objectId" ∧ dictContains resultData "id" = true
        · rw [if_pos hcond, dictLookup_insert_ne _ _ _ _ hgf]
          exact hb
        · rw [if_neg hcond]
          cases hlk : dictLookup resultData g with
          | none => exact hb
          | some v => rw [dictLookup_insert_ne _ _ _ _ hgf]; exact hb

theorem exportFold_lookup (resultData : Dict) (f : String) (w : Value)
    (hw : exportedValue resultData f = some w) :
    ∀ (fields : List String) (base : Dict), f ∈ fields →
    dictLookup (fields.foldl (fun m field =>
      if field = "objectId" ∧ dictContains resultData "id" then
        dictInsert m field ((dictLookup resultData "id").getD .null)
      else
        match dictLookup resultData field with
        | some v => dictInsert m field v
        | none => m) base) f = some w := by
  intro fields
  induction fields with
  | nil => intro base hf; simp at hf
  | cons g rest ih =>
      intro base hf
      rw [List.foldl_cons]
      by_cases hgf : g = f
      · subst hgf
        unfold exportedValue at hw
        by_cases hcond : g = "objectId" ∧ dictContains resultData "id" = true
        · rw [if_pos hcond] at hw ⊢
          refine exportFold_preserve resultData g w ?_ rest _ ?_
          · unfold exportedValue
            rw [if_pos hcond, hw]
          · rw [dictLookup_insert_self, hw]
            rfl
        · rw [if_neg hcond] at hw ⊢
          rw [hw]
          refine exportFold_preserve resultData g w ?_ rest _
            (dictLookup_insert_self base g w)
          unfold exportedValue
          rw [if_neg hcond, hw]
      · have hfr : f ∈ rest := by
          rcases List.mem_cons.mp hf with h1 | h1
          · exact absurd h1.symm hgf
          · exact h1
        exact ih _ hfr

/-- Claim C7, amended: When exporting a successful step's outputs, a
declared output field named `objectId` is satisfied from the result data's
generic `id` key whenever `id` is present — even when an identically-named
`objectId` key also exists; the `objectId` key's own value is exported only
when `id` is absent. -/
theorem exportOutputs_objectId_alias (nodeId : String) (rd : Dict)
    (outs : List String) (ctx : Ctx) (hout : "objectId" ∈ outs) :
    (∀ w, dictLookup rd "id" = some w →
      dictLookup ((ctxLookup (exportOutputsToContext nodeId rd outs ctx) nodeId).getD [])
        "objectId" = some w) ∧
    (dictLookup rd "id" = none → ∀ w, dictLookup rd "objectId" = some w →
      dictLookup ((ctxLookup (exportOutputsToContext nodeId rd outs ctx) nodeId).getD [])
        "objectId" = some w) := by
  constructor
  · intro w hid
    unfold exportOutputsToContext
    rw [ctxLookup_insert_self]
    refine exportFold_lookup rd "objectId" w ?_ outs _ hout
    unfold exportedValue
    rw [if_pos ⟨rfl, by unfold dictContains; rw [hid]; rfl⟩]
    exact hid
  · intro hid w hobj
    unfold exportOutputsToContext
    rw [ctxLookup_insert_self]
    refine exportFold_lookup rd "objectId" w ?_ outs _ hout
    unfold exportedValue
    rw [if_neg (by unfold dictContains; rw [hid]; simp)]
    exact hobj

/-- Counterexample to C7 as stated: with BOTH `id` and `objectId` present in
the result data, the code exports the `id` value (`"A"`), not the
identically-named `objectId` key's value (`"B"`). -/
theorem exportOutputs_objectId_counterexample :
    dictLookup ((ctxLookup (exportOutputsToContext "n"
        [("id", .str "A"), ("objectId", .str "B")] ["objectId"] []) "n").getD [])
      "objectId" = some (.str "A") ∧
    (Value.str "A") ≠ (Value.str "B") := by decide

/-- Witness for the amended C7. -/
theorem exportOutputs_objectId_alias_witness :
    dictLookup ((ctxLookup (exportOutputsToContext "n"
        [("id", .str "X")] ["objectId"] []) "n").getD []) "objectId" =
      some (.str "X") :=
  (exportOutputs_objectId_alias "n" [("id", .str "X")] ["objectId"] []
    (by decide)).1 (.str "X") rfl

theorem isPrefixOf_append_self {α : Type} [DecidableEq α] (l1 l2 : List α) :
    l1.isPrefixOf (l1 ++ l2) = true := by
  induction l1 with
  | nil => simp [List.isPrefixOf]
  | cons a rest ih => simp [List.isPrefixOf, ih]

theorem splitCA_ne_nil (l : List Char) : splitCA l ≠ [] := by
  cases l with
  | nil => simp [splitCA]
  | cons c rest =>
      simp only [splitCA]
      split
      · simp
      · split
        · simp
        · simp

theorem splitCA_no_colon (l : List Char) (h : ':' ∉ l) : splitCA l = [l] := by
  induction l with
  | nil => rfl
  | cons c rest ih =>
      simp only [splitCA]
      rw [if_neg (show ¬ c = ':' from fun hc => h (hc ▸ List.mem_cons_self c rest))]
      rw [ih (fun hc => h (List.mem_cons_of_mem c hc))]

theorem splitCA_append_colon (l1 l2 : List Char) (h : ':' ∉ l1) :
    splitCA (l1 ++ ':' :: l2) = l1 :: splitCA l2 := by
  induction l1 with
  | nil => simp [splitCA]
  | cons c rest ih =>
      rw [List.cons_append]
      simp only [splitCA]
      rw [if_neg (show ¬ c = ':' from fun hc => h (hc ▸ List.mem_cons_self c rest))]
      rw [ih (fun hc => h (List.mem_cons_of_mem c hc))]

theorem ref_toList (A f : String) :
    ("$from:" ++ A ++ ":$output:" ++ f).toList
      = "$from".toList ++ ':' :: (A.toList ++ ':' ::
          ("$output".toList ++ ':' :: f.toList)) := by
  have h1 : ("$from:" ++ A ++ ":$output:" ++ f).toList
      = "$from:".toList ++ A.toList ++ ":$output:".toList ++ f.toList := by
    simp [String.toList]
  rw [h1]
  have h2 : ("$from:" : String).toList = "$from".toList ++ [':'] := by decide
  have h3 : (":$output:" : String).toList = ':' :: ("$output".toList ++ [':']) := by decide
  rw [h2, h3]
  simp

theorem splitOnColon_ref (A f : String) (hA : ':' ∉ A.toList) (hf : ':' ∉ f.toList) :
    splitOnColon ("$from:" ++ A ++ ":$output:" ++ f) = ["$from", A, "$output", f] := by
  unfold splitOnColon
  rw [ref_toList, splitCA_append_colon _ _ (by decide),
    splitCA_append_colon _ _ hA, splitCA_append_colon _ _ (by decide),
    splitCA_no_colon _ hf]
  rfl

theorem resolveValue_ref (tsFull tsHM : String) (ctx : Ctx) (A f : String)
    (hA : ':' ∉ A.toList) (hf : ':' ∉ f.toList) (m : Dict) (v : Value)
    (hctx : ctxLookup ctx A = some m) (hval : dictLookup m f = some v) :
    resolveValue tsFull tsHM ctx (.str ("$from:" ++ A ++ ":$output:" ++ f)) = .ok v := by
  unfold resolveValue
  dsimp only
  rw [if_pos (by
    have h1 : ("$from:" ++ A ++ ":$output:" ++ f).toList
        = "$from:".toList ++ (A.toList ++ (":$output:".toList ++ f.toList)) := by
      simp [String.toList]
    rw [h1]
    exact isPrefixOf_append_self _ _)]
  rw [splitOnColon_ref A f hA hf]
  dsimp only
  rw [if_pos rfl, hctx]
  dsimp only
  rw [hval]

/-- Claim C6: Round trip of symbolic references: if node `A`'s contract
declares output `f` (e.g. `objectId`), node B's field `k` holds
`$from:A:$output:f`, and A's step completed successfully exporting `f` into
the context (exported value `v`), then resolving B's data yields exactly
`v` for `k`.  (Node/field names are colon-free, as the reference grammar
requires.) -/
theorem symbolic_ref_roundtrip (tsFull tsHM : String) (A f k : String)
    (hA : ':' ∉ A.toList) (hf : ':' ∉ f.toList)
    (rd : Dict) (outs : List String) (ctx0 : Ctx) (v : Value)
    (hout : f ∈ outs) (hv : exportedValue rd f = some v) :
    resolveSymbolicRefs tsFull tsHM [(k, .str ("$from:" ++ A ++ ":$output:" ++ f))]
      (exportOutputsToContext A rd outs ctx0) = .ok [(k, v)] := by
  rw [resolveSymbolicRefs]
  have hctx : ctxLookup (exportOutputsToContext A rd outs ctx0) A =
      some (outs.foldl (fun m field =>
        if field = "objectId" ∧ dictContains rd "id" then
          dictInsert m field ((dictLookup rd "id").getD .null)
        else
          match dictLookup rd field with
          | some w => dictInsert m field w
          | none => m) ((ctxLookup ctx0 A).getD [])) := by
    unfold exportOutputsToContext
    exact ctxLookup_insert_self _ _ _
  have hval := exportFold_lookup rd f v hv outs ((ctxLookup ctx0 A).getD []) hout
  rw [resolveValue_ref tsFull tsHM _ A f hA hf _ v hctx hval]
  rfl

/-- Witness for C6: `createX`'s exported `objectId` (= `obj-1`, via the `id`
alias) round-trips through `$from:n1:$output:objectId`. -/
theorem symbolic_ref_roundtrip_witness :
    resolveSymbolicRefs "t" "t"
      [("objectId", .str ("$from:" ++ "n1" ++ ":$output:" ++ "objectId"))]
      (exportOutputsToContext "n1" [("id", .str "obj-1")] ["objectId"] []) =
      .ok [("objectId", .str "obj-1")] :=
  symbolic_ref_roundtrip "t" "t" "n1" "objectId" "objectId" (by decide) (by decide)
    [("id", .str "obj-1")] ["objectId"] [] (.str "obj-1") (by decide) (by decide)

theorem memoFind_none (memo : Memo) (k : IdemKey)
    (h : ∀ kv ∈ memo, kv.1 ≠ k) : memoFind memo k = none := by
  unfold memoFind
  rw [List.find?_eq_none.mpr (fun p hp => by simp [h p hp])]
  rfl

theorem memoInsert_mem (memo : Memo) (k : IdemKey) (r : StepResult) :
    ∀ kv ∈ memoInsert memo k r, kv ∈ memo ∨ kv.1 = k := by
  induction memo with
  | nil =>
      intro kv hkv
      simp only [memoInsert, List.mem_singleton] at hkv
      exact Or.inr (by rw [hkv])
  | cons p rest ih =>
      intro kv hkv
      rw [memoInsert] at hkv
      by_cases hp : p.1 = k
      · rw [if_pos hp] at hkv
        rcases List.mem_cons.mp hkv with h1 | h1
        · exact Or.inr (by rw [h1])
        · exact Or.inl (List.mem_cons_of_mem _ h1)
      · rw [if_neg hp] at hkv
        rcases List.mem_cons.mp hkv with h1 | h1
        · exact Or.inl (h1 ▸ List.mem_cons_self p rest)
        · rcases ih kv h1 with h2 | h2
          · exact Or.inl (List.mem_cons_of_mem _ h2)
          · exact Or.inr h2

theorem execLoop_no_idem {σ : Type} (reg : Registry σ) (tsF tsH : String)
    (resumeFrom : Option String) :
    ∀ (steps : List StepM) (skipUntil : Bool) (ctx : Ctx) (memo : Memo)
      (acc : List Entry) (s : σ),
    (steps.map StepM.nodeId).Nodup →
    (∀ kv ∈ memo, kv.1.nodeId ∉ steps.map StepM.nodeId) →
    (∀ en ∈ acc, en.isIdem = false) →
    ∀ en ∈ (execLoop reg tsF tsH resumeFrom false steps skipUntil ctx memo acc s).1.results,
      en.isIdem = false := by
  intro steps
  induction steps with
  | nil =>
      intro skipUntil ctx memo acc s _ _ hacc en hen
      rw [execLoop] at hen
      exact hacc en hen
  | cons step rest ih =>
      intro skipUntil ctx memo acc s hnodup hmemo hacc en hen
      have hnodup' : (rest.map StepM.nodeId).Nodup :=
        (List.nodup_cons.mp (by simpa using hnodup)).2
      have hhead : step.nodeId ∉ rest.map StepM.nodeId :=
        (List.nodup_cons.mp (by simpa using hnodup)).1
      rw [execLoop] at hen
      by_cases hskip : skipUntil = true ∧ some step.nodeId ≠ resumeFrom
      · rw [if_pos hskip] at hen
        refine ih skipUntil ctx memo _ s hnodup' ?_ ?_ en hen
        · intro kv hkv
          have := hmemo kv hkv
          simp only [List.map_cons, List.mem_cons, not_or] at this
          exact this.2
        · intro e he
          rcases List.mem_append.mp he with h1 | h1
          · exact hacc e h1
          · simp only [List.mem_singleton] at h1
            rw [h1]
            rfl
      · rw [if_neg hskip] at hen
        cases hres : resolveSymbolicRefs tsF tsH step.data ctx with
        | error msg =>
            rw [hres] at hen
            dsimp only at hen
            rcases List.mem_append.mp hen with h1 | h1
            · exact hacc en h1
            · simp only [List.mem_singleton] at h1
              rw [h1]
              rfl
        | ok rd =>
            rw [hres] at hen
            dsimp only at hen
            have hkey : memoFind memo (idempotencyKey step.nodeId step.type rd) = none := by
              apply memoFind_none
              intro kv hkv hk
              have h1 := hmemo kv hkv
              rw [hk] at h1
              exact h1 (by simp [idempotencyKey])
            rw [if_neg (by simp [hkey])] at hen
            cases hreg : reg step.type with
            | none =>
                rw [hreg] at hen
                dsimp only at hen
                rcases List.mem_append.mp hen with h1 | h1
                · exact hacc en h1
                · simp only [List.mem_singleton] at h1
                  rw [h1]
                  rfl
            | some spec =>
                rw [hreg] at hen
                dsimp only at hen
                have hmemo' : ∀ kv ∈ memoInsert memo
                    (idempotencyKey step.nodeId step.type rd) (spec.run rd s).1,
                    kv.1.nodeId ∉ rest.map StepM.nodeId := by
                  intro kv hkv
                  rcases memoInsert_mem memo _ _ kv hkv with h1 | h1
                  · have := hmemo kv h1
                    simp only [List.map_cons, List.mem_cons, not_or] at this
                    exact this.2
                  · rw [h1]
                    exact hhead
                have hacc' : ∀ e ∈ acc ++ [.ran step.nodeId (spec.run rd s).1.ok
                    (spec.run rd s).1 (idempotencyKey step.nodeId step.type rd) rd],
                    Entry.isIdem e = false := by
                  intro e he
                  rcases List.mem_append.mp he with h1 | h1
                  · exact hacc e h1
                  · simp only [List.mem_singleton] at h1
                    rw [h1]
                    rfl
                by_cases hok : (spec.run rd s).1.ok = true
                · rw [if_pos hok] at hen
                  exact ih false _ _ _ _ hnodup' hmemo' hacc' en hen
                · rw [if_neg hok] at hen
                  dsimp only at hen
                  exact hacc' en hen

/-- Claim C10: Within a single `execute_workflow_v2` call with
`force_rerun = false` on a plan whose nodeIds are pairwise distinct, the
memoized-replay branch is never taken: the memo starts empty, every stored
key embeds the nodeId of an already-processed step (the model's `IdemKey`
realises the claim's assumption that keys of payloads with distinct nodeIds
are distinct), so no step is ever marked `idempotent`. -/
theorem exec_single_call_no_idem {σ : Type} (reg : Registry σ)
    (tsF tsH : String) (flow : Flow) (dryRun : Bool) (resumeFrom : Option String)
    (s : σ)
    (hnodup : ((compileWorkflow reg flow).plan.map StepM.nodeId).Nodup) :
    ∀ en ∈ (executeWorkflowV2 reg tsF tsH flow dryRun resumeFrom false s).1.results,
      en.isIdem = false := by
  intro en hen
  unfold executeWorkflowV2 at hen
  by_cases hok : (compileWorkflow reg flow).ok = true
  · rw [if_neg (by simp [hok])] at hen
    by_cases hdry : dryRun = true
    · rw [if_pos hdry] at hen
      simp at hen
    · rw [if_neg hdry] at hen
      exact execLoop_no_idem reg tsF tsH resumeFrom _ _ _ _ _ _ hnodup
        (by simp) (by simp) en hen
  · rw [if_pos (by simp [hok])] at hen
    simp at hen

/-- Witness for C10: a fresh run of the two-step plan marks nothing
idempotent. -/
theorem exec_single_call_no_idem_witness :
    ((executeWorkflowV2 testReg "t" "t" flowW false none false 0).1.results.all
      (fun en => ! en.isIdem)) = true := by
  rw [List.all_eq_true]
  intro en hen
  have := exec_single_call_no_idem testReg "t" "t" flowW false none 0 (by decide) en hen
  simp [this]

theorem execLoop_fresh_count {σ : Type} (reg : Registry σ) (tsF tsH : String) :
    ∀ (steps : List StepM) (ctx : Ctx) (memo : Memo) (acc : List Entry) (s : σ),
    (steps.map StepM.nodeId).Nodup →
    (∀ kv ∈ memo, kv.1.nodeId ∉ steps.map StepM.nodeId) →
    (execLoop reg tsF tsH none false steps false ctx memo acc s).1.ok = true →
    (execLoop reg tsF tsH none false steps false ctx memo acc s).1.results.countP
        Entry.isRan = acc.countP Entry.isRan + steps.length := by
  intro steps
  induction steps with
  | nil =>
      intro ctx memo acc s _ _ _
      rw [execLoop]
      simp
  | cons step rest ih =>
      intro ctx memo acc s hnodup hmemo hok
      have hnodup' : (rest.map StepM.nodeId).Nodup :=
        (List.nodup_cons.mp (by simpa using hnodup)).2
      have hhead : step.nodeId ∉ rest.map StepM.nodeId :=
        (List.nodup_cons.mp (by simpa using hnodup)).1
      rw [execLoop] at hok ⊢
      rw [if_neg (by simp)] at hok ⊢
      cases hres : resolveSymbolicRefs tsF tsH step.data ctx with
      | error msg =>
          rw [hres] at hok
          dsimp only at hok
          exact absurd hok (by simp)
      | ok rd =>
          rw [hres] at hok
          dsimp only at hok ⊢
          have hkey : memoFind memo (idempotencyKey step.nodeId step.type rd) = none := by
            apply memoFind_none
            intro kv hkv hk
            have h1 := hmemo kv hkv
            rw [hk] at h1
            exact h1 (by simp [idempotencyKey])
          rw [if_neg (by simp [hkey])] at hok ⊢
          cases hreg : reg step.type with
          | none =>
              rw [hreg] at hok
              dsimp only at hok
              exact absurd hok (by simp)
          | some spec =>
              rw [hreg] at hok
              dsimp only at hok ⊢
              have hmemo' : ∀ kv ∈ memoInsert memo
                  (idempotencyKey step.nodeId step.type rd) (spec.run rd s).1,
                  kv.1.nodeId ∉ rest.map StepM.nodeId := by
                intro kv hkv
                rcases memoInsert_mem memo _ _ kv hkv with h1 | h1
                · have := hmemo kv h1
                  simp only [List.map_cons, List.mem_cons, not_or] at this
                  exact this.2
                · rw [h1]
                  exact hhead
              by_cases hrun : (spec.run rd s).1.ok = true
              · rw [if_pos hrun] at hok ⊢
                rw [ih _ _ _ _ hnodup' hmemo' hok]
                rw [List.countP_append]
                simp [Entry.isRan]
                omega
              · rw [if_neg hrun] at hok
                dsimp only at hok
                exact absurd hok (by simp)

/-- A single fresh `execute_workflow_v2` call (no dry run, no resume,
`force_rerun = false`) on a distinct-nodeId plan: no step is marked
idempotent, and a call that returns `ok = true` dispatched every plan step's
handler exactly once (`results` holds one `ran` entry per plan step). -/
theorem exec_call_fresh {σ : Type} (reg : Registry σ) (tsF tsH : String)
    (flow : Flow) (s : σ)
    (hnodup : ((compileWorkflow reg flow).plan.map StepM.nodeId).Nodup) :
    (∀ en ∈ (executeWorkflowV2 reg tsF tsH flow false none false s).1.results,
        en.isIdem = false) ∧
    ((executeWorkflowV2 reg tsF tsH flow false none false s).1.ok = true →
      (executeWorkflowV2 reg tsF tsH flow false none false s).1.results.countP
          Entry.isRan = (compileWorkflow reg flow).plan.length) := by
  unfold executeWorkflowV2
  by_cases hok : (compileWorkflow reg flow).ok = true
  · rw [if_neg (by simp [hok]), if_neg (by simp)]
    constructor
    · exact execLoop_no_idem reg tsF tsH none _ _ _ _ _ _ hnodup (by simp) (by simp)
    · intro h
      have := execLoop_fresh_count reg tsF tsH (compileWorkflow reg flow).plan
        [] [] [] s hnodup (by simp) h
      simpa using this
  · rw [if_pos (by simp [hok])]
    exact ⟨by simp, by simp⟩

/-- Claim C3, amended: The idempotency memo (and context) are created fresh
inside each `execute_workflow_v2` call and discarded at its end, so nothing
is memoized ACROSS calls: in each of two successive calls on the same flow
with `forceRerun = false` (plan nodeIds distinct), no step is marked
idempotent, and each call that completes `ok` invokes every step's handler
once — i.e. twice overall across the two runs, not once. -/
theorem execute_twice_no_cross_memo {σ : Type} (reg : Registry σ)
    (tsF1 tsH1 tsF2 tsH2 : String) (flow : Flow) (s0 : σ)
    (hnodup : ((compileWorkflow reg flow).plan.map StepM.nodeId).Nodup) :
    (∀ en ∈ (executeWorkflowV2 reg tsF1 tsH1 flow false none false s0).1.results,
        en.isIdem = false) ∧
    (∀ en ∈ (executeWorkflowV2 reg tsF2 tsH2 flow false none false
        (executeWorkflowV2 reg tsF1 tsH1 flow false none false s0).2).1.results,
        en.isIdem = false) ∧
    ((executeWorkflowV2 reg tsF1 tsH1 flow false none false s0).1.ok = true →
      (executeWorkflowV2 reg tsF1 tsH1 flow false none false s0).1.results.countP
          Entry.isRan = (compileWorkflow reg flow).plan.length) ∧
    ((executeWorkflowV2 reg tsF2 tsH2 flow false none false
        (executeWorkflowV2 reg tsF1 tsH1 flow false none false s0).2).1.ok = true →
      (executeWorkflowV2 reg tsF2 tsH2 flow false none false
          (executeWorkflowV2 reg tsF1 tsH1 flow false none false s0).2).1.results.countP
          Entry.isRan = (compileWorkflow reg flow).plan.length) := by
  obtain ⟨h1, h2⟩ := exec_call_fresh reg tsF1 tsH1 flow s0 hnodup
  obtain ⟨h3, h4⟩ := exec_call_fresh reg tsF2 tsH2 flow
    (executeWorkflowV2 reg tsF1 tsH1 flow false none false s0).2 hnodup
  exact ⟨h1, h3, h2, h4⟩

/-- A one-node flow whose handler bumps the external counter. -/
def flowOne : Flow := ⟨[⟨"s1", "createX", [("name", .str "S")]⟩], []⟩

/-- Counterexample to C3 as stated: running the same flow twice with
`forceRerun = false`, the second run replays nothing — its only step is a
fresh `ran` dispatch (not marked idempotent) and the handler's invocation
counter reaches 2, not 1. -/
theorem execute_twice_counterexample :
    ((executeWorkflowV2 testReg "t" "t" flowOne false none false
        (executeWorkflowV2 testReg "t" "t" flowOne false none false 0).2).1.results.all
      Entry.isIdem) = false ∧
    (executeWorkflowV2 testReg "t" "t" flowOne false none false
        (executeWorkflowV2 testReg "t" "t" flowOne false none false 0).2).2 = 2 := by
  decide

/-- Witness for the amended C3. -/
theorem execute_twice_no_cross_memo_witness :
    ((executeWorkflowV2 testReg "t" "t" flowOne false none false 0).1.ok = true →
      (executeWorkflowV2 testReg "t" "t" flowOne false none false 0).1.results.countP
          Entry.isRan = (compileWorkflow testReg flowOne).plan.length) ∧
    (∀ en ∈ (executeWorkflowV2 testReg "t" "t" flowOne false none false
        (executeWorkflowV2 testReg "t" "t" flowOne false none false 0).2).1.results,
        en.isIdem = false) := by
  have h := execute_twice_no_cross_memo testReg "t" "t" "t" "t" flowOne 0 (by decide)
  exact ⟨h.2.2.1, h.2.1⟩

theorem resolveValue_time_independent (ctx : Ctx) (v : Value)
    (h : ∀ s, v = .str s →
      containsL tsPat s.toList = false ∧ containsL hmPat s.toList = false)
    (t1 t2 t1' t2' : String) :
    resolveValue t1 t2 ctx v = resolveValue t1' t2' ctx v := by
  cases v with
  | str s =>
      obtain ⟨h1, h2⟩ := h s rfl
      have h1' : containsL tsPat s.data = false := h1
      have h2' : containsL hmPat s.data = false := h2
      unfold resolveValue
      dsimp only
      by_cases hp : ("$from:".toList).isPrefixOf s.toList = true
      · rw [if_pos hp, if_pos hp]
      · rw [if_neg hp, if_neg hp, if_neg (by simp [h1']), if_neg (by simp [h2']),
          if_neg (by simp [h1']), if_neg (by simp [h2'])]
  | int n => rfl
  | bool b => rfl
  | null => rfl

theorem resolveRefs_time_independent (data : Dict) (ctx : Ctx)
    (h : ∀ p ∈ data, ∀ s, p.2 = .str s →
      containsL tsPat s.toList = false ∧ containsL hmPat s.toList = false)
    (t1 t2 t1' t2' : String) :
    resolveSymbolicRefs t1 t2 data ctx = resolveSymbolicRefs t1' t2' data ctx := by
  induction data with
  | nil => rfl
  | cons p rest ih =>
      obtain ⟨k, v⟩ := p
      rw [resolveSymbolicRefs, resolveSymbolicRefs]
      rw [resolveValue_time_independent ctx v
        (fun s hs => h (k, v) (List.mem_cons_self _ _) s hs) t1 t2 t1' t2']
      rw [ih (fun p hp => h p (List.mem_cons_of_mem _ hp))]

/-- Claim C4, amended: `_stable_dict` strips only the keys literally named
`timestamp` / `executionId` / `_internal`; a wall-clock value substituted
into any other field by the `${timestamp}` template is part of the hashed
payload.  Keys are therefore time-independent exactly for step data free of
template placeholders: for such data, resolutions at any two times coincide
and so do the idempotency keys.  (The counterexample shows a step WITH a
placeholder computing different keys at different times.) -/
theorem idempotency_key_time_independent (n ty : String) (data : Dict) (ctx : Ctx)
    (h : ∀ p ∈ data, ∀ s, p.2 = .str s →
      containsL tsPat s.toList = false ∧ containsL hmPat s.toList = false)
    (t1 t2 t1' t2' : String) (d1 d2 : Dict)
    (h1 : resolveSymbolicRefs t1 t2 data ctx = .ok d1)
    (h2 : resolveSymbolicRefs t1' t2' data ctx = .ok d2) :
    d1 = d2 ∧ idempotencyKey n ty d1 = idempotencyKey n ty d2 := by
  have heq := resolveRefs_time_independent data ctx h t1 t2 t1' t2'
  rw [h1, h2] at heq
  injection heq with heq
  exact ⟨heq, by rw [heq]⟩

/-- Counterexample to C4 as stated: a step whose `name` field holds the
template `S_${timestamp}` resolves, at two different wall-clock instants, to
two data dicts whose idempotency keys DIFFER — the substituted timestamp is
hashed, not stripped. -/
theorem idempotency_key_timestamp_counterexample :
    resolveSymbolicRefs "20250101120000" "120000"
        [("name", .str "S_${timestamp}")] [] =
      .ok [("name", .str "S_20250101120000")] ∧
    resolveSymbolicRefs "20250101120001" "120001"
        [("name", .str "S_${timestamp}")] [] =
      .ok [("name", .str "S_20250101120001")] ∧
    idempotencyKey "n1" "createX" [("name", .str "S_20250101120000")] ≠
      idempotencyKey "n1" "createX" [("name", .str "S_20250101120001")] := by
  refine ⟨rfl, rfl, ?_⟩
  decide

/-- Witness for the amended C4: template-free data gives identical keys at
two different times. -/
theorem idempotency_key_time_independent_witness :
    [("name", Value.str "Foo")] = [("name", Value.str "Foo")] ∧
    idempotencyKey "n1" "createX" [("name", Value.str "Foo")] =
      idempotencyKey "n1" "createX" [("name", Value.str "Foo")] :=
  idempotency_key_time_independent "n1" "createX" [("name", .str "Foo")] []
    (by
      intro p hp s hs
      simp only [List.mem_singleton] at hp
      subst hp
      injection hs with hs
      subst hs
      exact ⟨by decide, by decide⟩)
    "20250101120000" "120000" "20250101120001" "120001"
    [("name", .str "Foo")] [("name", .str "Foo")] rfl rfl

end WF
